import Mathlib

/-!
Verification development for the benchmark report generator
(`scripts/generate_pages.py`).  The aggregation and ranking engine is
shallowly embedded: Python floats are idealised as exact real numbers
(every value finite); a second model (`FVal`) with explicit `nan`/`inf`
values is used for the claims that concern non-finite propagation.
Python's stable `list.sort` is modelled by insertion sort, which is the
same function: a stable sort w.r.t. a total preorder is unique.
Python dict insertion-order grouping (`setdefault(...).append`) is
modelled by listing keys in first-occurrence order and filtering, which
yields exactly the same association list.
-/

namespace Bench

/-- Code-point lexicographic strict order on character lists, mirroring
Python's string `<`. -/
def charsLtB : List Char → List Char → Bool
  | [], [] => false
  | [], _ :: _ => true
  | _ :: _, [] => false
  | x :: xs, y :: ys =>
    if x.val.toNat < y.val.toNat then true
    else if y.val.toNat < x.val.toNat then false
    else charsLtB xs ys

/-- Python string `<` (code-point lexicographic). -/
def strLtB (a b : String) : Bool := charsLtB a.data b.data

/-- Python string `<=`. -/
def strLeB (a b : String) : Bool := strLtB a b || decide (a = b)

/-- Python tuple comparison `(a1, a2) <= (b1, b2)` for string pairs:
lexicographic, first component major. -/
def pairLeB (a b : String × String) : Bool :=
  strLtB a.1 b.1 || (decide (a.1 = b.1) && strLeB a.2 b.2)

/-- Keys of a Python dict built by `setdefault`: first-occurrence order,
without duplicates. -/
def dedupFirst : List String → List String
  | [] => []
  | k :: ks => k :: (dedupFirst ks).filter (fun k' => k' ≠ k)

/-- First-occurrence order for string-pair keys. -/
def dedupFirstP : List (String × String) → List (String × String)
  | [] => []
  | k :: ks => k :: (dedupFirstP ks).filter (fun k' => k' ≠ k)

/-- Python dict grouping `d.setdefault(key(x), []).append(x)`: keys in
first-occurrence order, each key mapped to the sublist of elements with
that key, in encounter order. -/
def dictGroup {α : Type} (key : α → String) (xs : List α) :
    List (String × List α) :=
  (dedupFirst (xs.map key)).map (fun k => (k, xs.filter (fun x => key x = k)))

/-- Grouping by a string-pair key (used for `(version, benchmark)`). -/
def dictGroupP {α : Type} (key : α → String × String) (xs : List α) :
    List ((String × String) × List α) :=
  (dedupFirstP (xs.map key)).map
    (fun k => (k, xs.filter (fun x => key x = k)))

/-- Map with the element's position, used to model flagging the row
object returned by Python's `max` (identity comparison becomes a
positional comparison). -/
def mapIdxGo {α β : Type} (f : ℕ → α → β) : ℕ → List α → List β
  | _, [] => []
  | i, x :: xs => f i x :: mapIdxGo f (i + 1) xs

open scoped Classical

/-- One normalized measurement record (`Record` dataclass).  Floats are
idealised as real numbers; `score_error` is `none` when no error was
reported. -/
structure Record where
  run_id : String
  run_timestamp : String
  version : String
  benchmark : String
  score : ℝ
  score_error : Option ℝ
  score_unit : String
  threads : Option Int
  forks : Option Int
  measurement_iterations : Option Int
  measurement_time : Option String

/-- One element of a summary row's `history` list. -/
structure HistEntry where
  runId : String
  runTimestamp : String
  score : ℝ
  scoreError : Option ℝ

/-- One summary row (the dict built in `summarize`).  The five ranking
fields are `none` until the uncertainty-band ranking pass fills them. -/
structure SummaryRow where
  version : String
  benchmark : String
  latestRun : String
  latestTimestamp : String
  latestScore : ℝ
  latestScoreError : Option ℝ
  scoreUnit : String
  deltaVsPreviousPercent : Option ℝ
  meanLast8 : ℝ
  stdevLast8 : Option ℝ
  cvLast8Percent : Option ℝ
  samples : ℕ
  threads : Option Int
  forks : Option Int
  measurementIterations : Option Int
  measurementTime : Option String
  history : List HistEntry
  strictBest : Option Bool
  bestBandPercent : Option ℝ
  deltaFromBestPercent : Option ℝ
  coBest : Option Bool
  uncertaintyPercent : Option ℝ

/-- `sort_key`: records are ordered by `(run_timestamp, run_id)`. -/
def sortKey (r : Record) : String × String := (r.run_timestamp, r.run_id)

/-- The record order used by `values.sort(key=sort_key)`. -/
def recLE (a b : Record) : Prop := pairLeB (sortKey a) (sortKey b) = true

instance : DecidableRel recLE := fun _ _ => instDecidableEqBool _ _

/-- `statistics.fmean`: the arithmetic mean. -/
noncomputable def fmean (xs : List ℝ) : ℝ := xs.sum / xs.length

/-- The sample variance used by `statistics.stdev` (denominator `n - 1`). -/
noncomputable def sampleVariance (xs : List ℝ) : ℝ :=
  (xs.map (fun x => (x - fmean xs) ^ 2)).sum / ((xs.length : ℝ) - 1)

/-- `statistics.stdev`: the sample standard deviation. -/
noncomputable def stdev (xs : List ℝ) : ℝ := Real.sqrt (sampleVariance xs)

/-- The per-group body of `summarize`: sort the `(version, benchmark)`
group chronologically and build its summary row.  Python never reaches
the empty case (groups are nonempty by construction), so it yields
`none` here. -/
noncomputable def mkRow (values : List Record) : Option SummaryRow :=
  match List.insertionSort recLE values with
  | [] => none
  | v :: vs =>
    let sorted := v :: vs
    let latest := sorted.getLast (by simp)
    let previous : Option Record :=
      if 1 < sorted.length then sorted.get? (sorted.length - 2) else none
    let delta_percent : Option ℝ :=
      match previous with
      | some p =>
        if p.score ≠ 0 then some ((latest.score / p.score - 1) * 100) else none
      | none => none
    let sample := (sorted.drop (sorted.length - 8)).map (fun r => r.score)
    let mean_score := fmean sample
    let stdev_score : Option ℝ :=
      if 2 ≤ sample.length then some (stdev sample) else none
    let cv_percent : Option ℝ :=
      match stdev_score with
      | some s => if mean_score ≠ 0 then some (s / mean_score * 100) else none
      | none => none
    some
      { version := latest.version
        benchmark := latest.benchmark
        latestRun := latest.run_id
        latestTimestamp := latest.run_timestamp
        latestScore := latest.score
        latestScoreError := latest.score_error
        scoreUnit := latest.score_unit
        deltaVsPreviousPercent := delta_percent
        meanLast8 := mean_score
        stdevLast8 := stdev_score
        cvLast8Percent := cv_percent
        samples := sorted.length
        threads := latest.threads
        forks := latest.forks
        measurementIterations := latest.measurement_iterations
        measurementTime := latest.measurement_time
        history := sorted.map
          (fun r => ⟨r.run_id, r.run_timestamp, r.score, r.score_error⟩)
        strictBest := none
        bestBandPercent := none
        deltaFromBestPercent := none
        coBest := none
        uncertaintyPercent := none }

/-- The `(benchmark, version)` key of `summary_rows.sort`. -/
def rowKey (row : SummaryRow) : String × String := (row.benchmark, row.version)

/-- The summary-row order used by `summary_rows.sort`. -/
def rowLE (a b : SummaryRow) : Prop := pairLeB (rowKey a) (rowKey b) = true

instance : DecidableRel rowLE := fun _ _ => instDecidableEqBool _ _

/-- `relative_error_percent`. -/
noncomputable def relative_error_percent (score : ℝ) (score_error : Option ℝ) :
    Option ℝ :=
  match score_error with
  | none => none
  | some e => if score = 0 then none else some (|e / score| * 100)

/-- `uncertainty_percent`: the largest of the 2% floor, `|CV%|` and the
relative score-error percent, capped at 20.  The `math.isfinite` guards
of the source are vacuous in the all-finite real model. -/
noncomputable def uncertainty_percent (row : SummaryRow) : ℝ :=
  let candidates : List ℝ :=
    [2] ++
      (match row.cvLast8Percent with
        | some cv => [|cv|]
        | none => []) ++
      (match relative_error_percent row.latestScore row.latestScoreError with
        | some rel_err => [|rel_err|]
        | none => [])
  min (candidates.foldl max 2) 20

/-- The running state of Python's `max(benchmark_rows, key=...)`: keep
the current best unless a later element is strictly greater, so the
first element attaining the maximum wins. -/
noncomputable def bestIndexAux (i bi : ℕ) (bs : ℝ) :
    List SummaryRow → ℕ
  | [] => bi
  | x :: xs =>
    if bs < x.latestScore then bestIndexAux (i + 1) i x.latestScore xs
    else bestIndexAux (i + 1) bi bs xs

/-- Position of the row returned by `max(benchmark_rows, key=latestScore)`. -/
noncomputable def bestIndex : List SummaryRow → ℕ
  | [] => 0
  | x :: xs => bestIndexAux 1 0 x.latestScore xs

/-- The loop body of the ranking pass: fill the five ranking fields of
the row at position `i`, given the best row and its position `bi`. -/
noncomputable def flagRow (best_row : SummaryRow) (bi i : ℕ)
    (row : SummaryRow) : SummaryRow :=
  let best_score := best_row.latestScore
  let best_uncertainty := uncertainty_percent best_row
  let row_uncertainty := uncertainty_percent row
  let combined_band :=
    min (max (Real.sqrt (best_uncertainty ^ 2 + row_uncertainty ^ 2)) 2) 20
  let delta_from_best : ℝ :=
    if best_score ≠ 0 then (best_score - row.latestScore) / best_score * 100
    else 0
  { row with
    strictBest := some (decide (i = bi))
    bestBandPercent := some combined_band
    deltaFromBestPercent := some delta_from_best
    coBest := some (decide (delta_from_best ≤ combined_band + 1e-9))
    uncertaintyPercent := some row_uncertainty }

/-- The ranking pass over one benchmark group: Python mutates each row
in place; `row is best_row` is the positional test `i = bestIndex`. -/
noncomputable def rankGroup (rows : List SummaryRow) : List SummaryRow :=
  match rows with
  | [] => []
  | r0 :: _ =>
    let bi := bestIndex rows
    let best_row := rows.getD bi r0
    mapIdxGo (flagRow best_row bi) 0 rows

/-- The summary rows after `summary_rows.sort(key=(benchmark, version))`
and before the ranking pass. -/
noncomputable def summaryRowsSorted (records : List Record) :
    List SummaryRow :=
  List.insertionSort rowLE
    ((dictGroupP (fun r => (r.version, r.benchmark)) records).filterMap
      (fun g => mkRow g.2))

/-- The benchmark group of the sorted summary rows for benchmark `k`
(the row list of `benchmark_groups[k]`). -/
noncomputable def benchmarkGroupRows (records : List Record) (k : String) :
    List SummaryRow :=
  (summaryRowsSorted records).filter (fun row => decide (row.benchmark = k))

/-- `summarize`: group by `(version, benchmark)`, build rows, sort by
`(benchmark, version)`, then rank each benchmark group.  Because the
sorted list has its benchmark groups contiguous, updating the rows
group by group and returning the sorted list is the concatenation of
the updated groups. -/
noncomputable def summarize (records : List Record) : List SummaryRow :=
  let benchmark_groups :=
    dictGroup (fun row => row.benchmark) (summaryRowsSorted records)
  (benchmark_groups.map (fun g => rankGroup g.2)).flatten

/-- `records_upto_run`: prefix-inclusion snapshot filter — keep exactly
the records whose run id lies in the prefix of `run_order` up to and
including the first position of `run_id`. -/
def records_upto_run (records : List Record) (run_order : List String)
    (run_id : String) : List Record :=
  if run_id ∈ run_order then
    records.filter (fun r =>
      decide (r.run_id ∈ run_order.take (run_order.indexOf run_id + 1)))
  else []

/-- The combined uncertainty band of the spec:
`clamp(sqrt(best.uncertainty^2 + row.uncertainty^2), 2, 20)`. -/
noncomputable def combinedBandOf (best row : SummaryRow) : ℝ :=
  min (max (Real.sqrt
    (uncertainty_percent best ^ 2 + uncertainty_percent row ^ 2)) 2) 20

/-- The delta-from-best percentage of the spec:
`(best.score - row.score) / best.score * 100` when `best.score ≠ 0`,
else `0`. -/
noncomputable def deltaFromBestOf (best row : SummaryRow) : ℝ :=
  if best.latestScore ≠ 0 then
    (best.latestScore - row.latestScore) / best.latestScore * 100
  else 0

/-- A minimal summary row used to instantiate universally quantified
statements on concrete inputs. -/
def blankRow : SummaryRow :=
  { version := "v", benchmark := "b", latestRun := "r", latestTimestamp := "t"
    latestScore := 1, latestScoreError := none, scoreUnit := ""
    deltaVsPreviousPercent := none, meanLast8 := 1, stdevLast8 := none
    cvLast8Percent := none, samples := 1, threads := none, forks := none
    measurementIterations := none, measurementTime := none, history := []
    strictBest := none, bestBandPercent := none, deltaFromBestPercent := none
    coBest := none, uncertaintyPercent := none }

/-- Python string `<=` as a relation (used by `sorted(...)` on strings). -/
def strLe (a b : String) : Prop := strLeB a b = true

instance : DecidableRel strLe := fun _ _ => instDecidableEqBool _ _

/-- The axis order of `build_chart_data_map`: `(run_id, run_timestamp)`
pairs compared by the Python key `(item[1], item[0])`, i.e. timestamp
major, run id minor. -/
def axisKeyLE (a b : String × String) : Prop :=
  pairLeB (a.2, a.1) (b.2, b.1) = true

instance : DecidableRel axisKeyLE := fun _ _ => instDecidableEqBool _ _

/-- The order of `sorted(grouped.keys())` lifted to the grouped pairs. -/
def groupLE {α : Type} (a b : String × List α) : Prop := strLeB a.1 b.1 = true

instance {α : Type} : DecidableRel (@groupLE α) :=
  fun _ _ => instDecidableEqBool _ _

/-- One line of a chart: a version label and one value per axis
position, `none` being the explicit gap.  (The cycling display color of
the source is presentation-only and omitted.) -/
structure ChartSeries where
  name : String
  data : List (Option ℝ)

/-- One benchmark's chart payload.  `runs` keeps the raw
`(run_id, run_timestamp)` axis; the compact/display labels derived from
the timestamp are presentation-only and omitted. -/
structure ChartEntry where
  benchmark : String
  scoreUnit : String
  runs : List (String × String)
  series : List ChartSeries

/-- The `run_index` dict of `build_chart_data_map`: it is built by
enumeration with overwrite, so a run id maps to the position of its
last occurrence on the axis. -/
def lastIndexOfFst : List (String × String) → String → Option ℕ
  | [], _ => none
  | p :: rest, rid =>
    match lastIndexOfFst rest rid with
    | some j => some (j + 1)
    | none => if p.1 = rid then some 0 else none

/-- One version's value array: start from `[None] * len(axis)` and
assign each record's score at its run's axis position.  (A run id
absent from the axis would raise `KeyError` in the source; it cannot
occur because the axis collects every record's run, so the model leaves
the array unchanged.) -/
def fillLine (axis : List (String × String)) (recs : List Record) :
    List (Option ℝ) :=
  recs.foldl
    (fun acc r =>
      match lastIndexOfFst axis r.run_id with
      | some i => acc.set i (some r.score)
      | none => acc)
    (List.replicate axis.length none)

/-- The shared axis: the distinct `(run_id, run_timestamp)` pairs of
the benchmark's records, sorted ascending by `(timestamp, run_id)`. -/
def chartAxis (values : List Record) : List (String × String) :=
  List.insertionSort axisKeyLE
    (dedupFirstP (values.map (fun r => (r.run_id, r.run_timestamp))))

/-- The distinct version labels of the benchmark's records, sorted. -/
def chartVersions (values : List Record) : List String :=
  List.insertionSort strLe (dedupFirst (values.map (fun r => r.version)))

/-- The per-benchmark body of `build_chart_data_map`. -/
def buildChartEntry (benchmark : String) (group : List Record) :
    ChartEntry :=
  let values := List.insertionSort recLE group
  let axis := chartAxis values
  { benchmark := benchmark
    scoreUnit :=
      match values with
      | [] => ""
      | v :: _ => v.score_unit
    runs := axis
    series := (chartVersions values).map
      (fun version =>
        ⟨version,
          fillLine axis
            (values.filter (fun r => decide (r.version = version)))⟩) }

/-- `build_chart_data_map`: group records by benchmark and emit one
chart entry per benchmark in sorted benchmark order. -/
def build_chart_data_map (records : List Record) :
    List (String × ChartEntry) :=
  (List.insertionSort groupLE
      (dictGroup (fun r => r.benchmark) records)).map
    (fun g => (g.1, buildChartEntry g.1 g.2))

/-- First record of the C7 counterexample: run id `r` with timestamp
`t1`. -/
def cxRec1 : Record := ⟨"r", "t1", "a", "X", 1, none, "", none, none, none, none⟩

/-- Second record of the C7 counterexample: the same run id `r` carries
a different timestamp `t2`. -/
def cxRec2 : Record := ⟨"r", "t2", "a", "X", 2, none, "", none, none, none, none⟩

/-- Concrete input with two versions tied at the maximum score on one
benchmark, used to witness C10. -/
def waRec : Record :=
  ⟨"r1", "t1", "a", "X", 100, none, "", none, none, none, none⟩

/-- Second record of the C10 witness input. -/
def wbRec : Record :=
  ⟨"r1", "t1", "b", "X", 100, none, "", none, none, none, none⟩

/-- Records of the spec's end-to-end example: runs `r1` (2024-01-01)
and `r2` (2024-01-08), version `a` scoring `[100, 110]` and version `b`
scoring `[95, 150]` on benchmark `X`, no score error reported. -/
def exRa1 : Record :=
  ⟨"r1", "2024-01-01", "a", "X", 100, none, "ops/ms", none, none, none, none⟩

/-- Example record: version `a` at run `r2`. -/
def exRa2 : Record :=
  ⟨"r2", "2024-01-08", "a", "X", 110, none, "ops/ms", none, none, none, none⟩

/-- Example record: version `b` at run `r1`. -/
def exRb1 : Record :=
  ⟨"r1", "2024-01-01", "b", "X", 95, none, "ops/ms", none, none, none, none⟩

/-- Example record: version `b` at run `r2`. -/
def exRb2 : Record :=
  ⟨"r2", "2024-01-08", "b", "X", 150, none, "ops/ms", none, none, none, none⟩

/-- The record set of the spec's end-to-end example. -/
def exRecs : List Record := [exRa1, exRb1, exRa2, exRb2]

/-- The summary row of version `a` in the example. -/
noncomputable def exRowA : SummaryRow := (mkRow [exRa1, exRa2]).get (by decide)

/-- The summary row of version `b` in the example. -/
noncomputable def exRowB : SummaryRow := (mkRow [exRb1, exRb2]).get (by decide)

/-- A Python float idealised with exact finite values: a finite real,
NaN, or a signed infinity.  Rounding and overflow are idealised away;
the special values follow IEEE-754 float semantics as Python exposes
them. -/
inductive FVal
  | fin (x : ℝ)
  | nan
  | inf
  | ninf

/-- Float negation. -/
def FVal.neg : FVal → FVal
  | .fin x => .fin (-x)
  | .nan => .nan
  | .inf => .ninf
  | .ninf => .inf

/-- Float addition: NaN is absorbing, opposite infinities give NaN. -/
noncomputable def FVal.add : FVal → FVal → FVal
  | .nan, _ => .nan
  | _, .nan => .nan
  | .fin x, .fin y => .fin (x + y)
  | .inf, .ninf => .nan
  | .ninf, .inf => .nan
  | .inf, _ => .inf
  | _, .inf => .inf
  | .ninf, _ => .ninf
  | _, .ninf => .ninf

/-- Float subtraction. -/
noncomputable def FVal.sub (a b : FVal) : FVal := FVal.add a (FVal.neg b)

/-- Float multiplication: NaN absorbing, `inf * 0` is NaN. -/
noncomputable def FVal.mul : FVal → FVal → FVal
  | .nan, _ => .nan
  | _, .nan => .nan
  | .fin x, .fin y => .fin (x * y)
  | .inf, .inf => .inf
  | .inf, .ninf => .ninf
  | .ninf, .inf => .ninf
  | .ninf, .ninf => .inf
  | .inf, .fin y => if y = 0 then .nan else if 0 < y then .inf else .ninf
  | .fin x, .inf => if x = 0 then .nan else if 0 < x then .inf else .ninf
  | .ninf, .fin y => if y = 0 then .nan else if 0 < y then .ninf else .inf
  | .fin x, .ninf => if x = 0 then .nan else if 0 < x then .ninf else .inf

/-- Float division.  Python raises `ZeroDivisionError` on a zero
divisor; every division in the source is guarded, so the unreachable
case is modelled as NaN. -/
noncomputable def FVal.div : FVal → FVal → FVal
  | .nan, _ => .nan
  | _, .nan => .nan
  | .fin x, .fin y => if y = 0 then .nan else .fin (x / y)
  | .fin _, .inf => .fin 0
  | .fin _, .ninf => .fin 0
  | .inf, .fin y => if y = 0 then .nan else if 0 < y then .inf else .ninf
  | .ninf, .fin y => if y = 0 then .nan else if 0 < y then .ninf else .inf
  | .inf, .inf => .nan
  | .inf, .ninf => .nan
  | .ninf, .inf => .nan
  | .ninf, .ninf => .nan

/-- Float `abs`. -/
def FVal.absF : FVal → FVal
  | .fin x => .fin |x|
  | .nan => .nan
  | .inf => .inf
  | .ninf => .inf

/-- `math.sqrt`: raises on negative input (unreachable here, modelled
as NaN), NaN on NaN, infinity on infinity. -/
noncomputable def FVal.sqrtF : FVal → FVal
  | .fin x => if x < 0 then .nan else .fin (Real.sqrt x)
  | .nan => .nan
  | .inf => .inf
  | .ninf => .nan

/-- Float `==`: NaN compares unequal to everything, itself included. -/
def FVal.eqF : FVal → FVal → Prop
  | .fin x, .fin y => x = y
  | .inf, .inf => True
  | .ninf, .ninf => True
  | _, _ => False

/-- Float `<`: any comparison with NaN is false. -/
def FVal.ltF : FVal → FVal → Prop
  | .fin x, .fin y => x < y
  | .fin _, .inf => True
  | .ninf, .fin _ => True
  | .ninf, .inf => True
  | _, _ => False

/-- Float `<=`. -/
def FVal.leF (a b : FVal) : Prop := FVal.ltF a b ∨ FVal.eqF a b

/-- Python float truthiness: everything but `0.0` (NaN and the
infinities included) is truthy. -/
def FVal.truthy (v : FVal) : Prop := ¬ FVal.eqF v (.fin 0)

/-- `math.isfinite`. -/
def FVal.IsFinite : FVal → Prop
  | .fin _ => True
  | _ => False

/-- Python's two-argument `max`: the second argument wins only when it
is strictly greater. -/
noncomputable def FVal.maxF (a b : FVal) : FVal :=
  if FVal.ltF a b then b else a

/-- Python's two-argument `min`. -/
noncomputable def FVal.minF (a b : FVal) : FVal :=
  if FVal.ltF b a then b else a

/-- Float summation from `0.0`, as `math.fsum` behaves on the special
values. -/
noncomputable def sumF (xs : List FVal) : FVal :=
  xs.foldl FVal.add (.fin 0)

/-- `statistics.fmean` on floats. -/
noncomputable def fmeanF (xs : List FVal) : FVal :=
  FVal.div (sumF xs) (.fin xs.length)

/-- The sample variance underlying `statistics.stdev`. -/
noncomputable def varianceF (xs : List FVal) : FVal :=
  FVal.div
    (sumF (xs.map (fun x =>
      FVal.mul (FVal.sub x (fmeanF xs)) (FVal.sub x (fmeanF xs)))))
    (FVal.sub (.fin xs.length) (.fin 1))

/-- `statistics.stdev` on floats. -/
noncomputable def stdevF (xs : List FVal) : FVal :=
  FVal.sqrtF (varianceF xs)

/-- A measurement record in the float model. -/
structure RecordF where
  run_id : String
  run_timestamp : String
  version : String
  benchmark : String
  score : FVal
  score_error : Option FVal
  score_unit : String
  threads : Option Int
  forks : Option Int
  measurement_iterations : Option Int
  measurement_time : Option String

/-- One element of a summary row's `history` list, float model. -/
structure HistEntryF where
  runId : String
  runTimestamp : String
  score : FVal
  scoreError : Option FVal

/-- A summary row in the float model. -/
structure SummaryRowF where
  version : String
  benchmark : String
  latestRun : String
  latestTimestamp : String
  latestScore : FVal
  latestScoreError : Option FVal
  scoreUnit : String
  deltaVsPreviousPercent : Option FVal
  meanLast8 : FVal
  stdevLast8 : Option FVal
  cvLast8Percent : Option FVal
  samples : ℕ
  threads : Option Int
  forks : Option Int
  measurementIterations : Option Int
  measurementTime : Option String
  history : List HistEntryF
  strictBest : Option Bool
  bestBandPercent : Option FVal
  deltaFromBestPercent : Option FVal
  coBest : Option Bool
  uncertaintyPercent : Option FVal

/-- `sort_key` in the float model. -/
def sortKeyF (r : RecordF) : String × String := (r.run_timestamp, r.run_id)

/-- Chronological record order in the float model. -/
def recLEF (a b : RecordF) : Prop := pairLeB (sortKeyF a) (sortKeyF b) = true

instance : DecidableRel recLEF := fun _ _ => instDecidableEqBool _ _

/-- The per-group body of `summarize` in the float model. -/
noncomputable def mkRowF (values : List RecordF) : Option SummaryRowF :=
  match List.insertionSort recLEF values with
  | [] => none
  | v :: vs =>
    let sorted := v :: vs
    let latest := sorted.getLast (by simp)
    let previous : Option RecordF :=
      if 1 < sorted.length then sorted.get? (sorted.length - 2) else none
    let delta_percent : Option FVal :=
      match previous with
      | some p =>
        if ¬ FVal.eqF p.score (.fin 0) then
          some (FVal.mul (FVal.sub (FVal.div latest.score p.score) (.fin 1))
            (.fin 100))
        else none
      | none => none
    let sample := (sorted.drop (sorted.length - 8)).map (fun r => r.score)
    let mean_score := fmeanF sample
    let stdev_score : Option FVal :=
      if 2 ≤ sample.length then some (stdevF sample) else none
    let cv_percent : Option FVal :=
      match stdev_score with
      | some s =>
        if FVal.truthy mean_score then
          some (FVal.mul (FVal.div s mean_score) (.fin 100))
        else none
      | none => none
    some
      { version := latest.version
        benchmark := latest.benchmark
        latestRun := latest.run_id
        latestTimestamp := latest.run_timestamp
        latestScore := latest.score
        latestScoreError := latest.score_error
        scoreUnit := latest.score_unit
        deltaVsPreviousPercent := delta_percent
        meanLast8 := mean_score
        stdevLast8 := stdev_score
        cvLast8Percent := cv_percent
        samples := sorted.length
        threads := latest.threads
        forks := latest.forks
        measurementIterations := latest.measurement_iterations
        measurementTime := latest.measurement_time
        history := sorted.map
          (fun r => ⟨r.run_id, r.run_timestamp, r.score, r.score_error⟩)
        strictBest := none
        bestBandPercent := none
        deltaFromBestPercent := none
        coBest := none
        uncertaintyPercent := none }

/-- The row sort key in the float model. -/
def rowKeyF (row : SummaryRowF) : String × String :=
  (row.benchmark, row.version)

/-- The summary-row order in the float model. -/
def rowLEF (a b : SummaryRowF) : Prop :=
  pairLeB (rowKeyF a) (rowKeyF b) = true

instance : DecidableRel rowLEF := fun _ _ => instDecidableEqBool _ _

/-- `relative_error_percent` in the float model. -/
noncomputable def relative_error_percentF (score : FVal)
    (score_error : Option FVal) : Option FVal :=
  match score_error with
  | none => none
  | some e =>
    if FVal.eqF score (.fin 0) then none
    else some (FVal.mul (FVal.absF (FVal.div e score)) (.fin 100))

/-- `uncertainty_percent` in the float model, with the `math.isfinite`
guards of the source. -/
noncomputable def uncertainty_percentF (row : SummaryRowF) : FVal :=
  let cands : List FVal :=
    [.fin 2] ++
      (match row.cvLast8Percent with
        | some cv => if FVal.IsFinite cv then [FVal.absF cv] else []
        | none => []) ++
      (match relative_error_percentF row.latestScore row.latestScoreError with
        | some rel_err =>
          if FVal.IsFinite rel_err then [FVal.absF rel_err] else []
        | none => [])
  FVal.minF (cands.foldl FVal.maxF (.fin 2)) (.fin 20)

/-- Python `max(rows, key=latestScore)` in the float model: strict
improvement moves the incumbent, NaN comparisons never do. -/
noncomputable def bestIndexAuxF (i bi : ℕ) (bs : FVal) :
    List SummaryRowF → ℕ
  | [] => bi
  | x :: xs =>
    if FVal.ltF bs x.latestScore then bestIndexAuxF (i + 1) i x.latestScore xs
    else bestIndexAuxF (i + 1) bi bs xs

/-- Position of the best row in the float model. -/
noncomputable def bestIndexF : List SummaryRowF → ℕ
  | [] => 0
  | x :: xs => bestIndexAuxF 1 0 x.latestScore xs

/-- The combined band of the ranking pass in the float model:
`min(max(sqrt(bu**2 + ru**2), 2.0), 20.0)`. -/
noncomputable def combinedBandF (bu ru : FVal) : FVal :=
  FVal.minF (FVal.maxF (FVal.sqrtF (FVal.add (FVal.mul bu bu)
    (FVal.mul ru ru))) (.fin 2)) (.fin 20)

/-- The ranking loop body in the float model. -/
noncomputable def flagRowF (best_row : SummaryRowF) (bi i : ℕ)
    (row : SummaryRowF) : SummaryRowF :=
  let best_score := best_row.latestScore
  let best_uncertainty := uncertainty_percentF best_row
  let row_uncertainty := uncertainty_percentF row
  let combined_band := combinedBandF best_uncertainty row_uncertainty
  let delta_from_best : FVal :=
    if ¬ FVal.eqF best_score (.fin 0) then
      FVal.mul (FVal.div (FVal.sub best_score row.latestScore) best_score)
        (.fin 100)
    else .fin 0
  { row with
    strictBest := some (decide (i = bi))
    bestBandPercent := some combined_band
    deltaFromBestPercent := some delta_from_best
    coBest := some (decide (FVal.leF delta_from_best
      (FVal.add combined_band (.fin 1e-9))))
    uncertaintyPercent := some row_uncertainty }

/-- The ranking pass in the float model. -/
noncomputable def rankGroupF (rows : List SummaryRowF) : List SummaryRowF :=
  match rows with
  | [] => []
  | r0 :: _ =>
    let bi := bestIndexF rows
    let best_row := rows.getD bi r0
    mapIdxGo (flagRowF best_row bi) 0 rows

/-- The sorted summary rows in the float model. -/
noncomputable def summaryRowsSortedF (records : List RecordF) :
    List SummaryRowF :=
  List.insertionSort rowLEF
    ((dictGroupP (fun r => (r.version, r.benchmark)) records).filterMap
      (fun g => mkRowF g.2))

/-- `summarize` in the float model. -/
noncomputable def summarizeF (records : List RecordF) : List SummaryRowF :=
  let benchmark_groups :=
    dictGroup (fun row => row.benchmark) (summaryRowsSortedF records)
  (benchmark_groups.map (fun g => rankGroupF g.2)).flatten

/-- A decoded JSON scalar as `float()` sees it: null, a number (NaN and
Infinity literals included), the literal string `"NaN"`, a numeric
string carrying the value `float()` yields, or a value `float()`
rejects with an exception. -/
inductive JScalar
  | jnull
  | jval (v : FVal)
  | nanStr
  | numStr (v : FVal)
  | badStr

/-- `float(x)`: `none` models a raised `ValueError`/`TypeError`. -/
def floatOf : JScalar → Option FVal
  | .jnull => none
  | .jval v => some v
  | .nanStr => some .nan
  | .numStr v => some v
  | .badStr => none

/-- The `primaryMetric` object; `none` fields model absent keys. -/
structure JMetric where
  score : Option JScalar
  scoreError : Option JScalar
  scoreUnit : Option String

/-- One decoded benchmark-result object. -/
structure JItem where
  primaryMetric : Option JMetric
  benchmark : Option String
  threads : Option Int
  forks : Option Int
  measurementIterations : Option Int
  measurementTime : Option String

/-- One element of the decoded payload: an object, or something whose
attribute lookup would raise. -/
inductive JElem
  | notObj
  | obj (item : JItem)

/-- The decoded payload: a list of elements, or not a list at all. -/
inductive JPayload
  | notList
  | list (items : List JElem)

/-- The per-element body of `parse_jmh_result`'s `try` block: `none`
models the caught exception (the element is skipped). -/
def parse_item (run_id run_timestamp version : String) :
    JElem → Option RecordF
  | .notObj => none
  | .obj item =>
    let metric := item.primaryMetric.getD ⟨none, none, none⟩
    match metric.score with
    | none => none
    | some raw =>
      match floatOf raw with
      | none => none
      | some score =>
        let build : Option FVal → RecordF := fun score_error =>
          { run_id := run_id
            run_timestamp := run_timestamp
            version := version
            benchmark := item.benchmark.getD "<unknown>"
            score := score
            score_error := score_error
            score_unit := metric.scoreUnit.getD ""
            threads := item.threads
            forks := item.forks
            measurement_iterations := item.measurementIterations
            measurement_time := item.measurementTime }
        match metric.scoreError with
        | none => some (build none)
        | some .jnull => some (build none)
        | some .nanStr => some (build none)
        | some raw_err =>
          match floatOf raw_err with
          | none => none
          | some e => some (build (some e))

/-- `parse_jmh_result` over the decoded payload. -/
def parse_jmh_result (payload : JPayload)
    (run_id run_timestamp version : String) : List RecordF :=
  match payload with
  | .notList => []
  | .list items => items.filterMap (parse_item run_id run_timestamp version)

/-- An element whose primary score is missing or does not convert to a
float (the skip condition named by the spec). -/
def scoreBad (item : JItem) : Prop :=
  (item.primaryMetric.getD ⟨none, none, none⟩).score = none ∨
  (∃ raw, (item.primaryMetric.getD ⟨none, none, none⟩).score = some raw ∧
    floatOf raw = none)

/-- A well-formed benchmark-result object used in concrete payloads. -/
def goodItem : JItem :=
  { primaryMetric := some ⟨some (.jval (.fin 100)), none, some "ops/ms"⟩
    benchmark := some "X"
    threads := none, forks := none
    measurementIterations := none, measurementTime := none }

/-- An object whose `primaryMetric.score` is a non-numeric string. -/
def badItem : JItem :=
  { primaryMetric := some ⟨some .badStr, none, some "ops/ms"⟩
    benchmark := some "X"
    threads := none, forks := none
    measurementIterations := none, measurementTime := none }

/-- A record whose score is NaN, as the normalizer produces for a
result object whose score field is the numeric string `"NaN"`. -/
def nanRec : RecordF :=
  ⟨"r1", "t1", "a", "X", .nan, none, "", none, none, none, none⟩

/-- Every derived statistic of a summary row is absent or finite. -/
def derivedFinite (row : SummaryRowF) : Prop :=
  FVal.IsFinite row.latestScore ∧
  (∀ e, row.latestScoreError = some e → FVal.IsFinite e) ∧
  (∀ d, row.deltaVsPreviousPercent = some d → FVal.IsFinite d) ∧
  FVal.IsFinite row.meanLast8 ∧
  (∀ s, row.stdevLast8 = some s → FVal.IsFinite s) ∧
  (∀ c, row.cvLast8Percent = some c → FVal.IsFinite c) ∧
  (∀ u, row.uncertaintyPercent = some u → FVal.IsFinite u) ∧
  (∀ b, row.bestBandPercent = some b → FVal.IsFinite b) ∧
  (∀ d, row.deltaFromBestPercent = some d → FVal.IsFinite d)

/-- The pre-ranking fields of `derivedFinite`. -/
def baseFinite (row : SummaryRowF) : Prop :=
  FVal.IsFinite row.latestScore ∧
  (∀ e, row.latestScoreError = some e → FVal.IsFinite e) ∧
  (∀ d, row.deltaVsPreviousPercent = some d → FVal.IsFinite d) ∧
  FVal.IsFinite row.meanLast8 ∧
  (∀ s, row.stdevLast8 = some s → FVal.IsFinite s) ∧
  (∀ c, row.cvLast8Percent = some c → FVal.IsFinite c)

theorem charsLtB_irrefl : ∀ a : List Char, charsLtB a a = false := by
  intro a
  induction a with
  | nil => rfl
  | cons x xs ih => simp [charsLtB, ih]

theorem charsLtB_trans : ∀ a b c : List Char,
    charsLtB a b = true → charsLtB b c = true → charsLtB a c = true := by
  intro a
  induction a with
  | nil =>
    intro b c hab hbc
    cases b with
    | nil => cases c <;> simp [charsLtB] at hbc ⊢
    | cons y ys => cases c with
      | nil => simp [charsLtB] at hbc
      | cons z zs => simp [charsLtB]
  | cons x xs ih =>
    intro b c hab hbc
    cases b with
    | nil => simp [charsLtB] at hab
    | cons y ys =>
      cases c with
      | nil => simp [charsLtB] at hbc
      | cons z zs =>
        simp only [charsLtB] at hab hbc ⊢
        split_ifs at hab hbc ⊢ with h1 h2 h3 h4 h5 h6 <;>
          first
          | rfl
          | omega
          | (exact ih ys zs hab hbc)

theorem charsLtB_eq_of_not_lt : ∀ a b : List Char,
    charsLtB a b = false → charsLtB b a = false → a = b := by
  intro a
  induction a with
  | nil =>
    intro b hab _
    cases b with
    | nil => rfl
    | cons y ys => simp [charsLtB] at hab
  | cons x xs ih =>
    intro b hab hba
    cases b with
    | nil => simp [charsLtB] at hba
    | cons y ys =>
      simp only [charsLtB] at hab hba
      by_cases h1 : x.val.toNat < y.val.toNat
      · simp [h1] at hab
      · by_cases h2 : y.val.toNat < x.val.toNat
        · simp [h2] at hba
        · simp only [h1, h2, if_false] at hab hba
          have hxy : x = y := by
            apply Char.ext
            apply UInt32.ext
            omega
          rw [hxy, ih ys hab hba]

theorem charsLtB_asymm {a b : List Char}
    (h : charsLtB a b = true) : charsLtB b a = false := by
  by_contra hcon
  have hba : charsLtB b a = true := by
    cases hx : charsLtB b a
    · exact absurd hx hcon
    · rfl
  have := charsLtB_trans a b a h hba
  rw [charsLtB_irrefl] at this
  exact Bool.false_ne_true this

theorem strLtB_trans {a b c : String} (hab : strLtB a b = true)
    (hbc : strLtB b c = true) : strLtB a c = true :=
  charsLtB_trans _ _ _ hab hbc

theorem str_eq_of_not_ltB {a b : String} (hab : strLtB a b = false)
    (hba : strLtB b a = false) : a = b := by
  have hdata := charsLtB_eq_of_not_lt a.data b.data hab hba
  cases a
  cases b
  exact congrArg String.mk hdata

theorem strLeB_total (a b : String) :
    strLeB a b = true ∨ strLeB b a = true := by
  unfold strLeB
  cases hab : strLtB a b
  · cases hba : strLtB b a
    · left
      have : a = b := str_eq_of_not_ltB hab hba
      simp [this]
    · right; simp
  · left; simp

theorem strLeB_trans {a b c : String} (hab : strLeB a b = true)
    (hbc : strLeB b c = true) : strLeB a c = true := by
  unfold strLeB at hab hbc ⊢
  rcases Bool.or_eq_true_iff.mp hab with h1 | h1 <;>
    rcases Bool.or_eq_true_iff.mp hbc with h2 | h2
  · exact Bool.or_eq_true_iff.mpr (Or.inl (strLtB_trans h1 h2))
  · have : b = c := of_decide_eq_true h2
    subst this
    exact Bool.or_eq_true_iff.mpr (Or.inl h1)
  · have : a = b := of_decide_eq_true h1
    subst this
    exact Bool.or_eq_true_iff.mpr (Or.inl h2)
  · have h1' : a = b := of_decide_eq_true h1
    have h2' : b = c := of_decide_eq_true h2
    subst h1'; subst h2'
    simp

theorem strLeB_antisymm {a b : String} (hab : strLeB a b = true)
    (hba : strLeB b a = true) : a = b := by
  unfold strLeB at hab hba
  rcases Bool.or_eq_true_iff.mp hab with h1 | h1
  · rcases Bool.or_eq_true_iff.mp hba with h2 | h2
    · exact absurd (charsLtB_asymm h1) (by simp [strLtB] at h2 ⊢; exact h2)
    · exact (of_decide_eq_true h2).symm
  · exact of_decide_eq_true h1

theorem pairLeB_total (a b : String × String) :
    pairLeB a b = true ∨ pairLeB b a = true := by
  unfold pairLeB
  cases h1 : strLtB a.1 b.1
  · cases h2 : strLtB b.1 a.1
    · have heq : a.1 = b.1 := str_eq_of_not_ltB h1 h2
      rcases strLeB_total a.2 b.2 with h | h
      · left; simp [heq, h]
      · right; simp [heq, h]
    · right; simp
  · left; simp

theorem pairLeB_trans {a b c : String × String} (hab : pairLeB a b = true)
    (hbc : pairLeB b c = true) : pairLeB a c = true := by
  unfold pairLeB at hab hbc ⊢
  rcases Bool.or_eq_true_iff.mp hab with h1 | h1 <;>
    rcases Bool.or_eq_true_iff.mp hbc with h2 | h2
  · exact Bool.or_eq_true_iff.mpr (Or.inl (strLtB_trans h1 h2))
  · rcases Bool.and_eq_true_iff.mp h2 with ⟨h2a, _⟩
    have : b.1 = c.1 := of_decide_eq_true h2a
    rw [← this]
    simp [h1]
  · rcases Bool.and_eq_true_iff.mp h1 with ⟨h1a, _⟩
    have : a.1 = b.1 := of_decide_eq_true h1a
    rw [this]
    simp [h2]
  · rcases Bool.and_eq_true_iff.mp h1 with ⟨h1a, h1b⟩
    rcases Bool.and_eq_true_iff.mp h2 with ⟨h2a, h2b⟩
    have e1 : a.1 = b.1 := of_decide_eq_true h1a
    have e2 : b.1 = c.1 := of_decide_eq_true h2a
    refine Bool.or_eq_true_iff.mpr (Or.inr (Bool.and_eq_true_iff.mpr ⟨?_, ?_⟩))
    · exact decide_eq_true (e1.trans e2)
    · exact strLeB_trans h1b h2b

theorem pairLeB_antisymm {a b : String × String} (hab : pairLeB a b = true)
    (hba : pairLeB b a = true) : a = b := by
  unfold pairLeB at hab hba
  rcases Bool.or_eq_true_iff.mp hab with h1 | h1
  · rcases Bool.or_eq_true_iff.mp hba with h2 | h2
    · exact absurd (charsLtB_asymm h1) (by simp [strLtB] at h2 ⊢; exact h2)
    · rcases Bool.and_eq_true_iff.mp h2 with ⟨h2a, _⟩
      have heq : b.1 = a.1 := of_decide_eq_true h2a
      simp [strLtB, heq, charsLtB_irrefl] at h1
  · rcases Bool.or_eq_true_iff.mp hba with h2 | h2
    · rcases Bool.and_eq_true_iff.mp h1 with ⟨h1a, _⟩
      have heq : a.1 = b.1 := of_decide_eq_true h1a
      simp [strLtB, heq, charsLtB_irrefl] at h2
    · rcases Bool.and_eq_true_iff.mp h1 with ⟨h1a, h1b⟩
      rcases Bool.and_eq_true_iff.mp h2 with ⟨_, h2b⟩
      have e1 : a.1 = b.1 := of_decide_eq_true h1a
      have e2 : a.2 = b.2 := strLeB_antisymm h1b h2b
      exact Prod.ext e1 e2

instance : IsTotal Record recLE :=
  ⟨fun a b => pairLeB_total (sortKey a) (sortKey b)⟩

instance : IsTrans Record recLE :=
  ⟨fun _ _ _ hab hbc => pairLeB_trans hab hbc⟩

instance : IsTotal SummaryRow rowLE :=
  ⟨fun a b => pairLeB_total (rowKey a) (rowKey b)⟩

instance : IsTrans SummaryRow rowLE :=
  ⟨fun _ _ _ hab hbc => pairLeB_trans hab hbc⟩

theorem mapIdxGo_length {α β : Type} (f : ℕ → α → β) (s : ℕ) (xs : List α) :
    (mapIdxGo f s xs).length = xs.length := by
  induction xs generalizing s with
  | nil => rfl
  | cons x xs ih => simp [mapIdxGo, ih]

theorem mapIdxGo_get {α β : Type} (f : ℕ → α → β) (s : ℕ) (xs : List α)
    (i : ℕ) (hi : i < xs.length) (hi' : i < (mapIdxGo f s xs).length) :
    (mapIdxGo f s xs).get ⟨i, hi'⟩ = f (s + i) (xs.get ⟨i, hi⟩) := by
  induction xs generalizing s i with
  | nil => exact absurd hi (Nat.not_lt_zero i)
  | cons x xs ih =>
    cases i with
    | zero => simp [mapIdxGo]
    | succ j =>
      have hj : j < xs.length := Nat.lt_of_succ_lt_succ hi
      have hj' : j < (mapIdxGo f (s + 1) xs).length := by
        rw [mapIdxGo_length]; exact hj
      have := ih (s + 1) j hj hj'
      simp only [mapIdxGo, List.get_cons_succ, this]
      congr 1
      omega

/-- Invariant of the running maximum: either no later element beats the
incumbent `bs` (the result is the incumbent position `bi`), or the
result is the position of the first element strictly greater than `bs`
that no later element strictly exceeds. -/
theorem bestIndexAux_spec (xs : List SummaryRow) :
    ∀ (i bi : ℕ) (bs : ℝ) (d : SummaryRow),
      (bestIndexAux i bi bs xs = bi ∧ ∀ x ∈ xs, x.latestScore ≤ bs) ∨
      (∃ j, j < xs.length ∧ bestIndexAux i bi bs xs = i + j ∧
        bs < (xs.getD j d).latestScore ∧
        (∀ x ∈ xs, x.latestScore ≤ (xs.getD j d).latestScore) ∧
        (∀ k, k < j →
          (xs.getD k d).latestScore < (xs.getD j d).latestScore)) := by
  induction xs with
  | nil =>
    intro i bi bs d
    left
    exact ⟨rfl, by simp⟩
  | cons x xs ih =>
    intro i bi bs d
    by_cases h : bs < x.latestScore
    · rcases ih (i + 1) i x.latestScore d with ⟨heq, hall⟩ | ⟨j, hj, heq, hgt, hall, hfirst⟩
      · right
        refine ⟨0, by simp, ?_, ?_, ?_, ?_⟩
        · simpa [bestIndexAux, h] using heq
        · simpa using h
        · intro y hy
          rcases List.mem_cons.mp hy with rfl | hy
          · simp
          · simpa using hall y hy
        · intro k hk
          exact absurd hk (Nat.not_lt_zero k)
      · right
        refine ⟨j + 1, by simpa using Nat.succ_lt_succ hj, ?_, ?_, ?_, ?_⟩
        · rw [show i + (j + 1) = (i + 1) + j by omega]
          simpa [bestIndexAux, h] using heq
        · simpa using lt_trans h hgt
        · intro y hy
          rcases List.mem_cons.mp hy with rfl | hy
          · simpa using le_of_lt hgt
          · simpa using hall y hy
        · intro k hk
          cases k with
          | zero => simpa using hgt
          | succ k' => simpa using hfirst k' (Nat.lt_of_succ_lt_succ hk)
    · have hle : x.latestScore ≤ bs := not_lt.mp h
      rcases ih (i + 1) bi bs d with ⟨heq, hall⟩ | ⟨j, hj, heq, hgt, hall, hfirst⟩
      · left
        refine ⟨by simpa [bestIndexAux, h] using heq, ?_⟩
        intro y hy
        rcases List.mem_cons.mp hy with rfl | hy
        · exact hle
        · exact hall y hy
      · right
        refine ⟨j + 1, by simpa using Nat.succ_lt_succ hj, ?_, ?_, ?_, ?_⟩
        · rw [show i + (j + 1) = (i + 1) + j by omega]
          simpa [bestIndexAux, h] using heq
        · simpa using hgt
        · intro y hy
          rcases List.mem_cons.mp hy with rfl | hy
          · simpa using le_of_lt (lt_of_le_of_lt hle hgt)
          · simpa using hall y hy
        · intro k hk
          cases k with
          | zero => simpa using lt_of_le_of_lt hle hgt
          | succ k' => simpa using hfirst k' (Nat.lt_of_succ_lt_succ hk)

theorem bestIndex_lt (rows : List SummaryRow) (hne : rows ≠ []) :
    bestIndex rows < rows.length := by
  match rows with
  | x :: xs =>
    rcases bestIndexAux_spec xs 1 0 x.latestScore x with ⟨heq, _⟩ |
      ⟨j, hj, heq, _, _, _⟩
    · simp [bestIndex, heq]
    · simp only [bestIndex, heq, List.length_cons]
      omega

theorem bestIndex_is_max (rows : List SummaryRow) (d : SummaryRow)
    (j : ℕ) (hj : j < rows.length) :
    (rows.get ⟨j, hj⟩).latestScore ≤
      (rows.getD (bestIndex rows) d).latestScore := by
  match rows with
  | x :: xs =>
    rcases bestIndexAux_spec xs 1 0 x.latestScore d with ⟨heq, hall⟩ |
      ⟨j', hj', heq, hgt, hall, _⟩
    · simp only [bestIndex, heq, List.getD_cons_zero]
      cases j with
      | zero => simp
      | succ k =>
        exact hall _ (List.get_mem xs k (Nat.lt_of_succ_lt_succ hj))
    · have hbi : bestIndex (x :: xs) = j' + 1 := by
        simp only [bestIndex, heq]; omega
      rw [hbi, List.getD_cons_succ]
      cases j with
      | zero => simpa using le_of_lt hgt
      | succ k =>
        exact hall _ (List.get_mem xs k (Nat.lt_of_succ_lt_succ hj))

theorem bestIndex_first (rows : List SummaryRow) (d : SummaryRow)
    (k : ℕ) (hk : k < bestIndex rows) :
    (rows.getD k d).latestScore <
      (rows.getD (bestIndex rows) d).latestScore := by
  match rows with
  | [] => simp [bestIndex] at hk
  | x :: xs =>
    rcases bestIndexAux_spec xs 1 0 x.latestScore d with ⟨heq, _⟩ |
      ⟨j', hj', heq, hgt, _, hfirst⟩
    · simp only [bestIndex, heq] at hk
      exact absurd hk (Nat.not_lt_zero k)
    · have hbi : bestIndex (x :: xs) = j' + 1 := by
        simp only [bestIndex, heq]; omega
      rw [hbi] at hk ⊢
      rw [List.getD_cons_succ]
      cases k with
      | zero => simpa using hgt
      | succ k' =>
        rw [List.getD_cons_succ]
        exact hfirst k' (Nat.lt_of_succ_lt_succ hk)

theorem rankGroup_length (rows : List SummaryRow) :
    (rankGroup rows).length = rows.length := by
  cases rows with
  | nil => rfl
  | cons r rs => simp [rankGroup, mapIdxGo_length]

theorem rankGroup_cons_get (r0 : SummaryRow) (rs : List SummaryRow) (i : ℕ)
    (hi : i < (r0 :: rs).length) (hi' : i < (rankGroup (r0 :: rs)).length) :
    (rankGroup (r0 :: rs)).get ⟨i, hi'⟩ =
      flagRow ((r0 :: rs).getD (bestIndex (r0 :: rs)) r0)
        (bestIndex (r0 :: rs)) i ((r0 :: rs).get ⟨i, hi⟩) := by
  simp only [rankGroup]
  rw [mapIdxGo_get _ 0 _ i hi (by rw [mapIdxGo_length]; exact hi)]
  simp

theorem flagRow_bestBandPercent (best : SummaryRow) (bi i : ℕ)
    (row : SummaryRow) :
    (flagRow best bi i row).bestBandPercent = some (combinedBandOf best row) :=
  rfl

theorem flagRow_deltaFromBestPercent (best : SummaryRow) (bi i : ℕ)
    (row : SummaryRow) :
    (flagRow best bi i row).deltaFromBestPercent =
      some (deltaFromBestOf best row) :=
  rfl

theorem flagRow_coBest (best : SummaryRow) (bi i : ℕ) (row : SummaryRow) :
    (flagRow best bi i row).coBest =
      some (decide
        (deltaFromBestOf best row ≤ combinedBandOf best row + 1e-9)) :=
  rfl

theorem flagRow_strictBest (best : SummaryRow) (bi i : ℕ) (row : SummaryRow) :
    (flagRow best bi i row).strictBest = some (decide (i = bi)) :=
  rfl

theorem flagRow_uncertaintyPercent (best : SummaryRow) (bi i : ℕ)
    (row : SummaryRow) :
    (flagRow best bi i row).uncertaintyPercent =
      some (uncertainty_percent row) :=
  rfl

theorem combinedBandOf_ge_two (best row : SummaryRow) :
    2 ≤ combinedBandOf best row :=
  le_min (le_max_right _ _) (by norm_num)

theorem deltaFromBestOf_self (best : SummaryRow) :
    deltaFromBestOf best best = 0 := by
  unfold deltaFromBestOf
  split_ifs with h
  · simp
  · rfl

/-- C1: in every nonempty benchmark group, each ranked row's combined
band equals `clamp(sqrt(best.uncertainty^2 + row.uncertainty^2), 2, 20)`,
its co-best flag is `true` exactly when its delta-from-best is at most
the combined band plus the `1e-9` tolerance (so it is never `true` when
the delta exceeds the band by more than the tolerance), and the best row
itself is always co-best. -/
theorem claim_C1_combined_band_and_cobest (r0 : SummaryRow)
    (rs : List SummaryRow) (i : ℕ) (hi : i < (r0 :: rs).length) :
    ((rankGroup (r0 :: rs)).get
        ⟨i, by rw [rankGroup_length]; exact hi⟩).bestBandPercent =
      some (combinedBandOf ((r0 :: rs).getD (bestIndex (r0 :: rs)) r0)
        ((r0 :: rs).get ⟨i, hi⟩)) ∧
    (((rankGroup (r0 :: rs)).get
        ⟨i, by rw [rankGroup_length]; exact hi⟩).coBest = some true ↔
      deltaFromBestOf ((r0 :: rs).getD (bestIndex (r0 :: rs)) r0)
          ((r0 :: rs).get ⟨i, hi⟩) ≤
        combinedBandOf ((r0 :: rs).getD (bestIndex (r0 :: rs)) r0)
          ((r0 :: rs).get ⟨i, hi⟩) + 1e-9) ∧
    ((rankGroup (r0 :: rs)).get
        ⟨bestIndex (r0 :: rs), by
          rw [rankGroup_length]
          exact bestIndex_lt (r0 :: rs) (List.cons_ne_nil r0 rs)⟩).coBest =
      some true := by
  have hget := rankGroup_cons_get r0 rs i hi
    (by rw [rankGroup_length]; exact hi)
  refine ⟨?_, ?_, ?_⟩
  · rw [hget, flagRow_bestBandPercent]
  · rw [hget, flagRow_coBest]
    constructor
    · intro h
      have := Option.some_inj.mp h
      exact of_decide_eq_true this
    · intro h
      rw [decide_eq_true h]
  · have hb : bestIndex (r0 :: rs) < (r0 :: rs).length :=
      bestIndex_lt (r0 :: rs) (List.cons_ne_nil r0 rs)
    have hget2 := rankGroup_cons_get r0 rs (bestIndex (r0 :: rs)) hb
      (by rw [rankGroup_length]; exact hb)
    rw [hget2, flagRow_coBest]
    have heq : (r0 :: rs).getD (bestIndex (r0 :: rs)) r0 =
        (r0 :: rs).get ⟨bestIndex (r0 :: rs), hb⟩ := by
      rw [List.getD_eq_getElem _ _ hb, List.get_eq_getElem]
    rw [heq, deltaFromBestOf_self]
    have hband := combinedBandOf_ge_two
      ((r0 :: rs).get ⟨bestIndex (r0 :: rs), hb⟩)
      ((r0 :: rs).get ⟨bestIndex (r0 :: rs), hb⟩)
    have : (0:ℝ) ≤ combinedBandOf
        ((r0 :: rs).get ⟨bestIndex (r0 :: rs), hb⟩)
        ((r0 :: rs).get ⟨bestIndex (r0 :: rs), hb⟩) + 1e-9 := by
      norm_num at hband ⊢
      linarith
    rw [decide_eq_true this]

/-- Witness for C1 on a concrete one-row group. -/
theorem claim_C1_combined_band_and_cobest_witness :
    (0 < ([blankRow] : List SummaryRow).length) ∧
    (((rankGroup [blankRow]).get
        ⟨0, by rw [rankGroup_length]; decide⟩).bestBandPercent =
      some (combinedBandOf ([blankRow].getD (bestIndex [blankRow]) blankRow)
        ([blankRow].get ⟨0, by decide⟩)) ∧
    (((rankGroup [blankRow]).get
        ⟨0, by rw [rankGroup_length]; decide⟩).coBest = some true ↔
      deltaFromBestOf ([blankRow].getD (bestIndex [blankRow]) blankRow)
          ([blankRow].get ⟨0, by decide⟩) ≤
        combinedBandOf ([blankRow].getD (bestIndex [blankRow]) blankRow)
          ([blankRow].get ⟨0, by decide⟩) + 1e-9) ∧
    ((rankGroup [blankRow]).get
        ⟨bestIndex [blankRow], by
          rw [rankGroup_length]
          exact bestIndex_lt [blankRow] (List.cons_ne_nil blankRow [])⟩).coBest =
      some true) :=
  ⟨by decide, claim_C1_combined_band_and_cobest blankRow [] 0 (by decide)⟩

/-- C3: the uncertainty percent is the largest of the 2% floor, `|CV%|`
when defined, and `|score_error / latest_score| * 100` when the error is
defined and the latest score is nonzero, capped at 20; consequently it
always lies in `[2, 20]`. -/
theorem claim_C3_uncertainty_formula_and_clamp (row : SummaryRow) :
    uncertainty_percent row =
      min (max 2 (max
        (match row.cvLast8Percent with
          | some cv => |cv|
          | none => 0)
        (match row.latestScoreError with
          | some e =>
            if row.latestScore = 0 then 0 else |e / row.latestScore| * 100
          | none => 0))) 20 ∧
    2 ≤ uncertainty_percent row ∧ uncertainty_percent row ≤ 20 := by
  have habs : ∀ x : ℝ, |(|x| * 100)| = |x| * 100 := fun x =>
    abs_of_nonneg (by positivity)
  have hformula : uncertainty_percent row =
      min (max 2 (max
        (match row.cvLast8Percent with
          | some cv => |cv|
          | none => 0)
        (match row.latestScoreError with
          | some e =>
            if row.latestScore = 0 then 0 else |e / row.latestScore| * 100
          | none => 0))) 20 := by
    rcases hcv : row.cvLast8Percent with _ | cv <;>
      rcases herr : row.latestScoreError with _ | e
    · simp [uncertainty_percent, relative_error_percent, hcv, herr]
    · by_cases hz : row.latestScore = 0
      · simp [uncertainty_percent, relative_error_percent, hcv, herr, hz]
      · simp only [uncertainty_percent, relative_error_percent, hcv, herr,
          hz, if_neg hz, if_false, List.cons_append, List.nil_append,
          List.append_nil, List.foldl, habs]
        rw [max_self]
        congr 2
        exact (max_eq_right
          (by positivity : (0:ℝ) ≤ |e / row.latestScore| * 100)).symm
    · simp only [uncertainty_percent, relative_error_percent, hcv, herr,
        List.cons_append, List.nil_append, List.append_nil, List.foldl]
      rw [max_self]
      congr 1
      rw [max_eq_left (abs_nonneg cv)]
    · by_cases hz : row.latestScore = 0
      · simp only [uncertainty_percent, relative_error_percent, hcv, herr,
          hz, if_pos, List.cons_append, List.nil_append, List.append_nil,
          List.foldl]
        rw [max_self]
        congr 1
        rw [max_eq_left (abs_nonneg cv)]
      · simp only [uncertainty_percent, relative_error_percent, hcv, herr,
          if_neg hz, List.cons_append, List.nil_append, List.append_nil,
          List.foldl, habs]
        rw [max_self]
        congr 1
        rw [max_assoc]
  refine ⟨hformula, ?_, ?_⟩
  · rw [hformula]
    exact le_min (le_max_left _ _) (by norm_num)
  · rw [hformula]
    exact min_le_right _ _

theorem parse_item_none_of_scoreBad (run_id run_timestamp version : String)
    (item : JItem) (h : scoreBad item) :
    parse_item run_id run_timestamp version (.obj item) = none := by
  unfold parse_item
  dsimp only
  rcases h with h | ⟨raw, hraw, hconv⟩
  · rw [h]
  · rw [hraw]
    dsimp only
    rw [hconv]

theorem filterMap_length_of_isSome {α β : Type} (f : α → Option β) :
    ∀ l : List α, (∀ e ∈ l, (f e).isSome = true) →
      (l.filterMap f).length = l.length := by
  intro l
  induction l with
  | nil => intro _; rfl
  | cons x xs ih =>
    intro h
    have hx := h x (List.mem_cons_self x xs)
    rcases Option.isSome_iff_exists.mp hx with ⟨b, hb⟩
    rw [List.filterMap_cons, hb]
    simp only [List.length_cons]
    rw [ih (fun e he => h e (List.mem_cons_of_mem x he))]

/-- C8: the record normalizer never raises (exceptions are modelled as
per-element skips): a payload that is not a sequence yields an empty
list; an element whose primary score is missing or unconvertible is
skipped individually while all other elements are still normalized; in
particular a payload of otherwise valid objects with one non-numeric
`primaryMetric.score` yields one record fewer than it has objects. -/
theorem claim_C8_normalizer_skips_bad_elements
    (run_id run_timestamp version : String)
    (pre post : List JElem) (bad : JItem) (hbad : scoreBad bad) :
    parse_jmh_result .notList run_id run_timestamp version = [] ∧
    parse_jmh_result (.list (pre ++ .obj bad :: post))
        run_id run_timestamp version =
      parse_jmh_result (.list pre) run_id run_timestamp version ++
        parse_jmh_result (.list post) run_id run_timestamp version ∧
    ((∀ e ∈ pre, (parse_item run_id run_timestamp version e).isSome = true) →
      (∀ e ∈ post,
        (parse_item run_id run_timestamp version e).isSome = true) →
      (parse_jmh_result (.list (pre ++ .obj bad :: post))
          run_id run_timestamp version).length =
        (pre ++ .obj bad :: post).length - 1) := by
  have hsplit : parse_jmh_result (.list (pre ++ .obj bad :: post))
      run_id run_timestamp version =
      parse_jmh_result (.list pre) run_id run_timestamp version ++
        parse_jmh_result (.list post) run_id run_timestamp version := by
    unfold parse_jmh_result
    dsimp only
    rw [List.filterMap_append, List.filterMap_cons,
      parse_item_none_of_scoreBad run_id run_timestamp version bad hbad]
  refine ⟨rfl, hsplit, ?_⟩
  intro hpre hpost
  rw [hsplit]
  unfold parse_jmh_result
  dsimp only
  rw [List.length_append,
    filterMap_length_of_isSome _ pre hpre,
    filterMap_length_of_isSome _ post hpost,
    List.length_append, List.length_cons]
  omega

/-- Witness for C8: one valid object, one bad-score object, one more
valid object. -/
theorem claim_C8_normalizer_skips_bad_elements_witness :
    scoreBad badItem ∧
    (parse_jmh_result .notList "r1" "t1" "v" = [] ∧
    parse_jmh_result (.list ([.obj goodItem] ++ .obj badItem ::
        [.obj goodItem])) "r1" "t1" "v" =
      parse_jmh_result (.list [.obj goodItem]) "r1" "t1" "v" ++
        parse_jmh_result (.list [.obj goodItem]) "r1" "t1" "v" ∧
    ((∀ e ∈ [JElem.obj goodItem],
        (parse_item "r1" "t1" "v" e).isSome = true) →
      (∀ e ∈ [JElem.obj goodItem],
        (parse_item "r1" "t1" "v" e).isSome = true) →
      (parse_jmh_result (.list ([.obj goodItem] ++ .obj badItem ::
          [.obj goodItem])) "r1" "t1" "v").length =
        ([JElem.obj goodItem] ++ .obj badItem ::
          [JElem.obj goodItem]).length - 1)) :=
  ⟨Or.inr ⟨.badStr, rfl, rfl⟩,
    claim_C8_normalizer_skips_bad_elements "r1" "t1" "v"
      [.obj goodItem] [.obj goodItem] badItem
      (Or.inr ⟨.badStr, rfl, rfl⟩)⟩

/-- C5 counterexample: the record set with one record whose score is
NaN (obtainable from a result object whose score field is the string
`"NaN"`) produces a summary row whose rolling mean and delta-from-best
are NaN — present and not finite. -/
theorem claim_C5_counterexample :
    (summarizeF [nanRec]).length = 1 ∧
    ((summarizeF [nanRec]).get ⟨0, by decide⟩).meanLast8 = FVal.nan ∧
    ((summarizeF [nanRec]).get ⟨0, by decide⟩).deltaFromBestPercent =
      some FVal.nan ∧
    ¬ FVal.IsFinite FVal.nan := by
  refine ⟨rfl, rfl, ?_, ?_⟩
  · show some (if ¬ FVal.eqF FVal.nan (.fin 0) then
        FVal.mul (FVal.div (FVal.sub FVal.nan FVal.nan) FVal.nan) (.fin 100)
      else .fin 0) = some FVal.nan
    rw [if_pos (show ¬ FVal.eqF FVal.nan (.fin 0) from fun h => h)]
    rfl
  · intro h
    exact h

theorem FVal.isFinite_iff (v : FVal) :
    FVal.IsFinite v ↔ ∃ x, v = .fin x := by
  cases v <;> simp [FVal.IsFinite]

theorem FVal.sub_fin (x y : ℝ) : FVal.sub (.fin x) (.fin y) = .fin (x - y) := by
  show FVal.add (.fin x) (.fin (-y)) = _
  show FVal.fin (x + -y) = _
  rw [← sub_eq_add_neg]

theorem FVal.div_fin (x y : ℝ) (hy : y ≠ 0) :
    FVal.div (.fin x) (.fin y) = .fin (x / y) := by
  simp [FVal.div, hy]

theorem foldl_addF_fin :
    ∀ (l : List FVal) (a : ℝ), (∀ v ∈ l, FVal.IsFinite v) →
      ∃ S, l.foldl FVal.add (.fin a) = .fin S := by
  intro l
  induction l with
  | nil => intro a _; exact ⟨a, rfl⟩
  | cons v vs ih =>
    intro a h
    rcases (FVal.isFinite_iff v).mp (h v (List.mem_cons_self v vs)) with
      ⟨y, rfl⟩
    exact ih (a + y) (fun w hw => h w (List.mem_cons_of_mem _ hw))

theorem foldl_addF_nonneg :
    ∀ (l : List FVal) (a : ℝ), 0 ≤ a →
      (∀ v ∈ l, ∃ y, v = .fin y ∧ 0 ≤ y) →
      ∃ S, l.foldl FVal.add (.fin a) = .fin S ∧ 0 ≤ S := by
  intro l
  induction l with
  | nil => intro a ha _; exact ⟨a, rfl, ha⟩
  | cons v vs ih =>
    intro a ha h
    rcases h v (List.mem_cons_self v vs) with ⟨y, rfl, hy⟩
    exact ih (a + y) (by linarith)
      (fun w hw => h w (List.mem_cons_of_mem _ hw))

theorem sumF_fin (l : List FVal) (h : ∀ v ∈ l, FVal.IsFinite v) :
    ∃ S, sumF l = .fin S :=
  foldl_addF_fin l 0 h

theorem fmeanF_fin (l : List FVal) (hne : l ≠ [])
    (h : ∀ v ∈ l, FVal.IsFinite v) : FVal.IsFinite (fmeanF l) := by
  rcases sumF_fin l h with ⟨S, hS⟩
  have hlen : (l.length : ℝ) ≠ 0 := by
    have := List.length_pos.mpr hne
    exact_mod_cast Nat.pos_iff_ne_zero.mp this
  unfold fmeanF
  rw [hS, FVal.div_fin _ _ hlen]
  trivial

theorem varianceF_fin (l : List FVal) (hlen : 2 ≤ l.length)
    (h : ∀ v ∈ l, FVal.IsFinite v) :
    ∃ V, varianceF l = .fin V ∧ 0 ≤ V := by
  have hne : l ≠ [] := by
    intro habs
    rw [habs] at hlen
    simp at hlen
  rcases (FVal.isFinite_iff (fmeanF l)).mp (fmeanF_fin l hne h) with ⟨m, hm⟩
  have hterms : ∀ v ∈ l.map (fun x =>
      FVal.mul (FVal.sub x (fmeanF l)) (FVal.sub x (fmeanF l))),
      ∃ y, v = .fin y ∧ 0 ≤ y := by
    intro v hv
    rcases List.mem_map.mp hv with ⟨x, hx, rfl⟩
    rcases (FVal.isFinite_iff x).mp (h x hx) with ⟨xv, rfl⟩
    rw [hm, FVal.sub_fin]
    exact ⟨(xv - m) * (xv - m), rfl, mul_self_nonneg _⟩
  rcases foldl_addF_nonneg _ 0 le_rfl hterms with ⟨S, hS, hSnn⟩
  have hden : FVal.sub (.fin (l.length : ℝ)) (.fin 1) =
      .fin ((l.length : ℝ) - 1) := FVal.sub_fin _ _
  have hdenne : ((l.length : ℝ) - 1) ≠ 0 := by
    have : (2 : ℝ) ≤ (l.length : ℝ) := by exact_mod_cast hlen
    linarith
  refine ⟨S / ((l.length : ℝ) - 1), ?_, ?_⟩
  · unfold varianceF sumF
    rw [hS, hden, FVal.div_fin _ _ hdenne]
  · apply div_nonneg hSnn
    have : (2 : ℝ) ≤ (l.length : ℝ) := by exact_mod_cast hlen
    linarith

theorem stdevF_fin (l : List FVal) (hlen : 2 ≤ l.length)
    (h : ∀ v ∈ l, FVal.IsFinite v) : FVal.IsFinite (stdevF l) := by
  rcases varianceF_fin l hlen h with ⟨V, hV, hVnn⟩
  unfold stdevF
  rw [hV]
  show FVal.IsFinite (if V < 0 then .nan else .fin (Real.sqrt V))
  rw [if_neg (not_lt.mpr hVnn)]
  trivial

theorem foldl_maxF_fin :
    ∀ (l : List FVal) (a : ℝ), (∀ v ∈ l, FVal.IsFinite v) →
      ∃ x, l.foldl FVal.maxF (.fin a) = .fin x ∧ a ≤ x := by
  intro l
  induction l with
  | nil => intro a _; exact ⟨a, rfl, le_rfl⟩
  | cons v vs ih =>
    intro a h
    rcases (FVal.isFinite_iff v).mp (h v (List.mem_cons_self v vs)) with
      ⟨y, rfl⟩
    have hrest := fun w hw => h w (List.mem_cons_of_mem _ hw)
    show ∃ x, vs.foldl FVal.maxF (FVal.maxF (.fin a) (.fin y)) = .fin x ∧
      a ≤ x
    unfold FVal.maxF
    by_cases hlt : FVal.ltF (.fin a) (.fin y)
    · rw [if_pos hlt]
      rcases ih y hrest with ⟨x, hx, hyx⟩
      exact ⟨x, hx, le_of_lt (lt_of_lt_of_le (show a < y from hlt) hyx)⟩
    · rw [if_neg hlt]
      exact ih a hrest

theorem clampF_fin_bounds (l : List FVal) (h : ∀ v ∈ l, FVal.IsFinite v) :
    ∃ x, FVal.minF (l.foldl FVal.maxF (.fin 2)) (.fin 20) = .fin x ∧
      2 ≤ x ∧ x ≤ 20 := by
  rcases foldl_maxF_fin l 2 h with ⟨x, hx, h2x⟩
  rw [hx]
  unfold FVal.minF
  by_cases hlt : FVal.ltF (.fin 20) (.fin x)
  · rw [if_pos hlt]
    exact ⟨20, rfl, by norm_num, le_rfl⟩
  · rw [if_neg hlt]
    exact ⟨x, rfl, h2x, not_lt.mp (show ¬ (20:ℝ) < x from hlt)⟩

theorem uncertainty_percentF_bounds (row : SummaryRowF) :
    ∃ x, uncertainty_percentF row = .fin x ∧ 2 ≤ x ∧ x ≤ 20 := by
  have hfin : ∀ v ∈ ([FVal.fin 2] ++
      (match row.cvLast8Percent with
        | some cv => if FVal.IsFinite cv then [FVal.absF cv] else []
        | none => []) ++
      (match relative_error_percentF row.latestScore row.latestScoreError with
        | some rel_err =>
          if FVal.IsFinite rel_err then [FVal.absF rel_err] else []
        | none => [])), FVal.IsFinite v := by
    intro v hv
    rcases List.mem_append.mp hv with hv1 | hv2
    · rcases List.mem_append.mp hv1 with hv0 | hvcv
      · rcases List.mem_singleton.mp hv0 with rfl
        trivial
      · rcases hcv : row.cvLast8Percent with _ | cv
        · rw [hcv] at hvcv
          exact absurd hvcv (List.not_mem_nil v)
        · rw [hcv] at hvcv
          dsimp only at hvcv
          by_cases hf : FVal.IsFinite cv
          · rw [if_pos hf] at hvcv
            rcases List.mem_singleton.mp hvcv with rfl
            rcases (FVal.isFinite_iff cv).mp hf with ⟨c, rfl⟩
            trivial
          · rw [if_neg hf] at hvcv
            exact absurd hvcv (List.not_mem_nil v)
    · rcases hre : relative_error_percentF row.latestScore
        row.latestScoreError with _ | re
      · rw [hre] at hv2
        exact absurd hv2 (List.not_mem_nil v)
      · rw [hre] at hv2
        dsimp only at hv2
        by_cases hf : FVal.IsFinite re
        · rw [if_pos hf] at hv2
          rcases List.mem_singleton.mp hv2 with rfl
          rcases (FVal.isFinite_iff re).mp hf with ⟨c, rfl⟩
          trivial
        · rw [if_neg hf] at hv2
          exact absurd hv2 (List.not_mem_nil v)
  exact clampF_fin_bounds _ hfin

theorem combinedBandF_bounds (x1 x2 : ℝ) :
    ∃ y, combinedBandF (.fin x1) (.fin x2) = .fin y ∧ 2 ≤ y ∧ y ≤ 20 := by
  unfold combinedBandF
  have hnn : ¬ (x1 * x1 + x2 * x2 < 0) := by
    push_neg
    nlinarith [mul_self_nonneg x1, mul_self_nonneg x2]
  show ∃ y, FVal.minF (FVal.maxF (FVal.sqrtF (.fin (x1 * x1 + x2 * x2)))
      (.fin 2)) (.fin 20) = .fin y ∧ 2 ≤ y ∧ y ≤ 20
  unfold FVal.sqrtF
  dsimp only
  rw [if_neg hnn]
  unfold FVal.maxF
  by_cases h2 : FVal.ltF (.fin (Real.sqrt (x1 * x1 + x2 * x2))) (.fin 2)
  · rw [if_pos h2]
    unfold FVal.minF
    rw [if_neg (show ¬ FVal.ltF (.fin 20) (.fin 2) from fun h =>
      absurd (show (20:ℝ) < 2 from h) (by norm_num))]
    exact ⟨2, rfl, le_rfl, by norm_num⟩
  · rw [if_neg h2]
    have hs2 : (2:ℝ) ≤ Real.sqrt (x1 * x1 + x2 * x2) :=
      not_lt.mp (show ¬ Real.sqrt (x1 * x1 + x2 * x2) < 2 from h2)
    unfold FVal.minF
    by_cases h20 : FVal.ltF (.fin 20) (.fin (Real.sqrt (x1 * x1 + x2 * x2)))
    · rw [if_pos h20]
      exact ⟨20, rfl, by norm_num, le_rfl⟩
    · rw [if_neg h20]
      exact ⟨_, rfl, hs2,
        not_lt.mp (show ¬ (20:ℝ) < Real.sqrt (x1 * x1 + x2 * x2) from h20)⟩

theorem countP_flag_strictBest (best : SummaryRow) (bi : ℕ) :
    ∀ (xs : List SummaryRow) (s : ℕ),
      (mapIdxGo (flagRow best bi) s xs).countP
          (fun row => decide (row.strictBest = some true)) =
        if s ≤ bi ∧ bi < s + xs.length then 1 else 0 := by
  intro xs
  induction xs with
  | nil =>
    intro s
    simp only [mapIdxGo, List.countP_nil, List.length_nil, Nat.add_zero]
    rw [if_neg (by omega)]
  | cons x xs ih =>
    intro s
    have hp : (fun row => decide (row.strictBest = some true))
        (flagRow best bi s x) = decide (s = bi) := by
      simp [flagRow_strictBest]
    simp only [mapIdxGo, List.countP_cons, ih (s + 1), hp, List.length_cons,
      decide_eq_true_eq]
    split_ifs <;> omega

/-- C4: in every nonempty benchmark group, exactly one ranked row has
the strict-best flag, namely the row at `bestIndex` — the first
position in encounter order attaining the group's maximum latest score
— and that row's co-best flag is also true. -/
theorem claim_C4_strict_best_unique_first_max (r0 : SummaryRow)
    (rs : List SummaryRow) (i : ℕ) (hi : i < (r0 :: rs).length) :
    ((rankGroup (r0 :: rs)).countP
        (fun row => decide (row.strictBest = some true))) = 1 ∧
    (((rankGroup (r0 :: rs)).get
        ⟨i, by rw [rankGroup_length]; exact hi⟩).strictBest = some true ↔
      i = bestIndex (r0 :: rs)) ∧
    ((r0 :: rs).get ⟨i, hi⟩).latestScore ≤
      ((r0 :: rs).getD (bestIndex (r0 :: rs)) r0).latestScore ∧
    (∀ k, k < bestIndex (r0 :: rs) →
      ((r0 :: rs).getD k r0).latestScore <
        ((r0 :: rs).getD (bestIndex (r0 :: rs)) r0).latestScore) ∧
    ((rankGroup (r0 :: rs)).get
        ⟨bestIndex (r0 :: rs), by
          rw [rankGroup_length]
          exact bestIndex_lt (r0 :: rs) (List.cons_ne_nil r0 rs)⟩).coBest =
      some true := by
  have hb : bestIndex (r0 :: rs) < (r0 :: rs).length :=
    bestIndex_lt (r0 :: rs) (List.cons_ne_nil r0 rs)
  refine ⟨?_, ?_, ?_, ?_, ?_⟩
  · have := countP_flag_strictBest
      ((r0 :: rs).getD (bestIndex (r0 :: rs)) r0) (bestIndex (r0 :: rs))
      (r0 :: rs) 0
    simp only [rankGroup]
    rw [this, if_pos ⟨Nat.zero_le _, by simpa using hb⟩]
  · rw [rankGroup_cons_get r0 rs i hi (by rw [rankGroup_length]; exact hi),
      flagRow_strictBest]
    simp
  · exact bestIndex_is_max (r0 :: rs) r0 i hi
  · exact fun k hk => bestIndex_first (r0 :: rs) r0 k hk
  · rw [rankGroup_cons_get r0 rs (bestIndex (r0 :: rs)) hb
      (by rw [rankGroup_length]; exact hb), flagRow_coBest]
    have heq : (r0 :: rs).getD (bestIndex (r0 :: rs)) r0 =
        (r0 :: rs).get ⟨bestIndex (r0 :: rs), hb⟩ := by
      rw [List.getD_eq_getElem _ _ hb, List.get_eq_getElem]
    rw [heq, deltaFromBestOf_self]
    have hband := combinedBandOf_ge_two
      ((r0 :: rs).get ⟨bestIndex (r0 :: rs), hb⟩)
      ((r0 :: rs).get ⟨bestIndex (r0 :: rs), hb⟩)
    have hpos : (0:ℝ) ≤ combinedBandOf
        ((r0 :: rs).get ⟨bestIndex (r0 :: rs), hb⟩)
        ((r0 :: rs).get ⟨bestIndex (r0 :: rs), hb⟩) + 1e-9 := by
      norm_num at hband ⊢
      linarith
    rw [decide_eq_true hpos]

theorem indexOf_getLast_of_nodup :
    ∀ (l : List String) (h : l ≠ []), l.Nodup →
      l.indexOf (l.getLast h) = l.length - 1 := by
  intro l
  induction l with
  | nil => intro h; exact absurd rfl h
  | cons x tl ih =>
    intro h hnd
    cases tl with
    | nil => simp
    | cons y ys =>
      have htl : (y :: ys) ≠ [] := by simp
      have hgl : (x :: y :: ys).getLast h = (y :: ys).getLast htl :=
        List.getLast_cons htl
      have hne : x ≠ (y :: ys).getLast htl := by
        intro heq
        have hmem := List.getLast_mem htl
        rw [← heq] at hmem
        exact (List.nodup_cons.mp hnd).1 hmem
      rw [hgl, List.indexOf_cons_ne _ hne, ih htl (List.nodup_cons.mp hnd).2]
      simp

/-- C6: when every record's run id occurs in the canonical (duplicate
free) chronologically ordered run-id list, the snapshot for the last
run id in that list is the full cumulative computation: the prefix
filter keeps every record, so `summarize` yields exactly the same rows. -/
theorem claim_C6_snapshot_last_run_eq_full (records : List Record)
    (run_order : List String) (h1 : run_order ≠ []) (h2 : run_order.Nodup)
    (h3 : ∀ r ∈ records, r.run_id ∈ run_order) :
    summarize (records_upto_run records run_order (run_order.getLast h1)) =
      summarize records := by
  have hmem : run_order.getLast h1 ∈ run_order := List.getLast_mem h1
  have hidx : run_order.indexOf (run_order.getLast h1) =
      run_order.length - 1 := indexOf_getLast_of_nodup run_order h1 h2
  have hlenpos : 0 < run_order.length := List.length_pos.mpr h1
  have htake : run_order.take
      (run_order.indexOf (run_order.getLast h1) + 1) = run_order := by
    rw [hidx, show run_order.length - 1 + 1 = run_order.length by omega,
      List.take_length]
  have hfilter : records_upto_run records run_order
      (run_order.getLast h1) = records := by
    unfold records_upto_run
    rw [if_pos hmem]
    rw [htake]
    rw [List.filter_eq_self]
    intro r hr
    exact decide_eq_true (h3 r hr)
  rw [hfilter]

/-- Witness for C6 on a concrete one-record, one-run history. -/
theorem claim_C6_snapshot_last_run_eq_full_witness :
    ((["r1"] : List String) ≠ []) ∧ (["r1"] : List String).Nodup ∧
    (∀ r ∈ [(⟨"r1", "t1", "a", "X", 100, none, "", none, none, none,
        none⟩ : Record)], r.run_id ∈ ["r1"]) ∧
    (summarize (records_upto_run
        [⟨"r1", "t1", "a", "X", 100, none, "", none, none, none, none⟩]
        ["r1"] ((["r1"] : List String).getLast (by decide))) =
      summarize
        [⟨"r1", "t1", "a", "X", 100, none, "", none, none, none, none⟩]) :=
  ⟨by decide, by decide, by decide,
    claim_C6_snapshot_last_run_eq_full _ _ (by decide) (by decide)
      (by decide)⟩

/-- C9: delta-vs-previous is absent exactly when the series has fewer
than two samples or the previous (second-to-last in canonical
`(timestamp, run id)` order) record's score is `0`; otherwise it equals
`(latest.score / previous.score - 1) * 100` exactly. -/
theorem claim_C9_delta_vs_previous (values : List Record)
    (h : (mkRow values).isSome = true) :
    (((mkRow values).get h).deltaVsPreviousPercent = none ↔
      ((List.insertionSort recLE values).length < 2 ∨
        ∃ p, (List.insertionSort recLE values).get?
            ((List.insertionSort recLE values).length - 2) = some p ∧
          p.score = 0)) ∧
    (∀ p, (List.insertionSort recLE values).get?
          ((List.insertionSort recLE values).length - 2) = some p →
      p.score ≠ 0 → 2 ≤ (List.insertionSort recLE values).length →
      ∀ hne : List.insertionSort recLE values ≠ [],
        ((mkRow values).get h).deltaVsPreviousPercent =
          some ((((List.insertionSort recLE values).getLast hne).score
            / p.score - 1) * 100)) := by
  cases hs : List.insertionSort recLE values with
  | nil => simp [mkRow, hs] at h
  | cons v vs =>
    have hdelta : ((mkRow values).get h).deltaVsPreviousPercent =
        (match (if 1 < (v :: vs).length
                then (v :: vs).get? ((v :: vs).length - 2)
                else none : Option Record) with
          | some p =>
            if p.score ≠ 0 then
              some ((((v :: vs).getLast (by simp)).score / p.score - 1) * 100)
            else none
          | none => none) := by
      simp only [mkRow, hs]
      rfl
    cases vs with
    | nil =>
      have hdelta1 : ((mkRow values).get h).deltaVsPreviousPercent = none := by
        rw [hdelta]
        norm_num
      constructor
      · rw [hdelta1]
        simp
      · intro p _ _ h2
        simp at h2
    | cons w ws =>
      have hlen : ([v] ++ w :: ws).length - 2 < (v :: w :: ws).length := by
        simp
        omega
      have hp : (v :: w :: ws).get? ((v :: w :: ws).length - 2) =
          some ((v :: w :: ws).get ⟨(v :: w :: ws).length - 2, by simpa using hlen⟩) :=
        List.get?_eq_get (by simpa using hlen)
      have hif : (if 1 < (v :: w :: ws).length
            then (v :: w :: ws).get? ((v :: w :: ws).length - 2)
            else none) =
          some ((v :: w :: ws).get
            ⟨(v :: w :: ws).length - 2, by simpa using hlen⟩) := by
        rw [if_pos (by simp), hp]
      have hdelta2 : ((mkRow values).get h).deltaVsPreviousPercent =
          (if ((v :: w :: ws).get
                ⟨(v :: w :: ws).length - 2, by simpa using hlen⟩).score ≠ 0 then
            some ((((v :: w :: ws).getLast (by simp)).score
              / ((v :: w :: ws).get
                  ⟨(v :: w :: ws).length - 2, by simpa using hlen⟩).score - 1)
              * 100)
          else none) := by
        rw [hdelta, hif]
      by_cases hz : ((v :: w :: ws).get
          ⟨(v :: w :: ws).length - 2, by simpa using hlen⟩).score = 0
      · have hnone : ((mkRow values).get h).deltaVsPreviousPercent = none := by
          rw [hdelta2, if_neg (not_not_intro hz)]
        constructor
        · rw [hnone]
          constructor
          · intro _
            right
            exact ⟨_, hp, hz⟩
          · intro _
            rfl
        · intro p hpeq hpne _ _
          have : ((v :: w :: ws).get
              ⟨(v :: w :: ws).length - 2, by simpa using hlen⟩) = p := by
            rw [hp] at hpeq
            exact Option.some_inj.mp hpeq
          rw [this] at hz
          exact absurd hz hpne
      · have hsome : ((mkRow values).get h).deltaVsPreviousPercent =
            some ((((v :: w :: ws).getLast (by simp)).score
              / ((v :: w :: ws).get
                  ⟨(v :: w :: ws).length - 2, by simpa using hlen⟩).score - 1)
              * 100) := by
          rw [hdelta2, if_pos hz]
        constructor
        · rw [hsome]
          constructor
          · intro habs
            exact absurd habs (Option.some_ne_none _)
          · intro hrhs
            rcases hrhs with hlt | ⟨p, hpeq, hp0⟩
            · exfalso
              simp only [List.length_cons] at hlt
              omega
            · rw [hp] at hpeq
              rw [Option.some_inj.mp hpeq] at hz
              exact absurd hp0 hz
        · intro p hpeq hpne _ hne
          rw [hp] at hpeq
          rw [hsome, Option.some_inj.mp hpeq]

/-- Witness for C9 on a concrete two-record series. -/
theorem claim_C9_delta_vs_previous_witness :
    ((mkRow [⟨"r1", "t1", "a", "X", 100, none, "", none, none, none, none⟩,
        ⟨"r2", "t2", "a", "X", 110, none, "", none, none, none,
          none⟩]).isSome = true) ∧
    ((((mkRow [⟨"r1", "t1", "a", "X", 100, none, "", none, none, none, none⟩,
        ⟨"r2", "t2", "a", "X", 110, none, "", none, none, none,
          none⟩]).get (by decide)).deltaVsPreviousPercent = none ↔
      ((List.insertionSort recLE
          [⟨"r1", "t1", "a", "X", 100, none, "", none, none, none, none⟩,
            ⟨"r2", "t2", "a", "X", 110, none, "", none, none, none,
              none⟩]).length < 2 ∨
        ∃ p, (List.insertionSort recLE
            [⟨"r1", "t1", "a", "X", 100, none, "", none, none, none, none⟩,
              ⟨"r2", "t2", "a", "X", 110, none, "", none, none, none,
                none⟩]).get?
            ((List.insertionSort recLE
              [⟨"r1", "t1", "a", "X", 100, none, "", none, none, none, none⟩,
                ⟨"r2", "t2", "a", "X", 110, none, "", none, none, none,
                  none⟩]).length - 2) = some p ∧
          p.score = 0)) ∧
    (∀ p, (List.insertionSort recLE
          [⟨"r1", "t1", "a", "X", 100, none, "", none, none, none, none⟩,
            ⟨"r2", "t2", "a", "X", 110, none, "", none, none, none,
              none⟩]).get?
          ((List.insertionSort recLE
            [⟨"r1", "t1", "a", "X", 100, none, "", none, none, none, none⟩,
              ⟨"r2", "t2", "a", "X", 110, none, "", none, none, none,
                none⟩]).length - 2) = some p →
      p.score ≠ 0 → 2 ≤ (List.insertionSort recLE
        [⟨"r1", "t1", "a", "X", 100, none, "", none, none, none, none⟩,
          ⟨"r2", "t2", "a", "X", 110, none, "", none, none, none,
            none⟩]).length →
      ∀ hne : List.insertionSort recLE
          [⟨"r1", "t1", "a", "X", 100, none, "", none, none, none, none⟩,
            ⟨"r2", "t2", "a", "X", 110, none, "", none, none, none,
              none⟩] ≠ [],
        (((mkRow [⟨"r1", "t1", "a", "X", 100, none, "", none, none, none,
            none⟩,
            ⟨"r2", "t2", "a", "X", 110, none, "", none, none, none,
              none⟩]).get (by decide)).deltaVsPreviousPercent =
          some ((((List.insertionSort recLE
            [⟨"r1", "t1", "a", "X", 100, none, "", none, none, none, none⟩,
              ⟨"r2", "t2", "a", "X", 110, none, "", none, none, none,
                none⟩]).getLast hne).score / p.score - 1) * 100)))) :=
  ⟨by decide, claim_C9_delta_vs_previous _ (by decide)⟩

theorem dedupFirst_sublist :
    ∀ l : List String, List.Sublist (dedupFirst l) l := by
  intro l
  induction l with
  | nil => exact List.Sublist.refl []
  | cons k ks ih =>
    exact List.Sublist.cons₂ k ((List.filter_sublist _).trans ih)

theorem dedupFirst_nodup : ∀ l : List String, (dedupFirst l).Nodup := by
  intro l
  induction l with
  | nil => exact List.nodup_nil
  | cons k ks ih =>
    refine List.nodup_cons.mpr ⟨?_, ih.filter _⟩
    intro hmem
    have := (List.mem_filter.mp hmem).2
    simp at this

theorem mapIdxGo_mem {α β : Type} (f : ℕ → α → β) :
    ∀ (s : ℕ) (xs : List α) (y : β),
      y ∈ mapIdxGo f s xs → ∃ i x, x ∈ xs ∧ y = f i x := by
  intro s xs
  induction xs generalizing s with
  | nil => intro y hy; exact absurd hy (List.not_mem_nil y)
  | cons x xs ih =>
    intro y hy
    rcases List.mem_cons.mp hy with rfl | hy
    · exact ⟨s, x, List.mem_cons_self x xs, rfl⟩
    · rcases ih (s + 1) y hy with ⟨i, z, hz, rfl⟩
      exact ⟨i, z, List.mem_cons_of_mem x hz, rfl⟩

theorem flagRow_benchmark (best : SummaryRow) (bi i : ℕ) (row : SummaryRow) :
    (flagRow best bi i row).benchmark = row.benchmark := rfl

theorem flagRow_version (best : SummaryRow) (bi i : ℕ) (row : SummaryRow) :
    (flagRow best bi i row).version = row.version := rfl

theorem flagRow_latestScore (best : SummaryRow) (bi i : ℕ)
    (row : SummaryRow) :
    (flagRow best bi i row).latestScore = row.latestScore := rfl

theorem strLeB_refl (a : String) : strLeB a a = true := by
  unfold strLeB
  simp

theorem strLtB_of_strLeB_ne {a b : String} (h : strLeB a b = true)
    (hne : a ≠ b) : strLtB a b = true := by
  unfold strLeB at h
  rcases Bool.or_eq_true_iff.mp h with h1 | h1
  · exact h1
  · exact absurd (of_decide_eq_true h1) hne

theorem pairLeB_fst {a b : String × String} (h : pairLeB a b = true) :
    strLeB a.1 b.1 = true := by
  unfold pairLeB at h
  unfold strLeB
  rcases Bool.or_eq_true_iff.mp h with h1 | h1
  · simp [h1]
  · simp [(Bool.and_eq_true_iff.mp h1).1]

theorem pairLeB_snd_of_fst_eq {a b : String × String}
    (h : pairLeB a b = true) (heq : a.1 = b.1) : strLeB a.2 b.2 = true := by
  unfold pairLeB at h
  rcases Bool.or_eq_true_iff.mp h with h1 | h1
  · rw [heq] at h1
    unfold strLtB at h1
    rw [charsLtB_irrefl] at h1
    exact absurd h1 Bool.false_ne_true
  · exact (Bool.and_eq_true_iff.mp h1).2

theorem pairLeB_of_fst_lt {a b : String × String}
    (h : strLtB a.1 b.1 = true) : pairLeB a b = true := by
  unfold pairLeB
  simp [h]

theorem pairwise_rowLE_mapIdxGo (best : SummaryRow) (bi : ℕ) :
    ∀ (s : ℕ) (g : List SummaryRow), List.Pairwise rowLE g →
      List.Pairwise rowLE (mapIdxGo (flagRow best bi) s g) := by
  intro s g
  induction g generalizing s with
  | nil => intro _; exact List.Pairwise.nil
  | cons x xs ih =>
    intro hp
    rcases List.pairwise_cons.mp hp with ⟨hx, hxs⟩
    refine List.pairwise_cons.mpr ⟨?_, ih (s + 1) hxs⟩
    intro y hy
    rcases mapIdxGo_mem (flagRow best bi) (s + 1) xs y hy with ⟨i, z, hz, rfl⟩
    exact hx z hz

theorem pairwise_rowLE_rankGroup (g : List SummaryRow)
    (hp : List.Pairwise rowLE g) : List.Pairwise rowLE (rankGroup g) := by
  cases g with
  | nil => exact List.Pairwise.nil
  | cons r rs => exact pairwise_rowLE_mapIdxGo _ _ 0 (r :: rs) hp

theorem rankGroup_mem_key (g : List SummaryRow) (y : SummaryRow)
    (hy : y ∈ rankGroup g) :
    ∃ z ∈ g, y.benchmark = z.benchmark ∧ y.version = z.version := by
  cases g with
  | nil => exact absurd hy (List.not_mem_nil y)
  | cons r rs =>
    rcases mapIdxGo_mem _ 0 (r :: rs) y hy with ⟨i, z, hz, rfl⟩
    exact ⟨z, hz, rfl, rfl⟩

/-- The summary rows of one `summarize` pass are sorted ascending by
`(benchmark, version)`. -/
theorem pairwise_rowLE_summarize (records : List Record) :
    List.Pairwise rowLE (summarize records) := by
  have hsorted : List.Pairwise rowLE (summaryRowsSorted records) :=
    List.sorted_insertionSort rowLE _
  simp only [summarize, dictGroup]
  rw [List.map_map]
  refine List.pairwise_flatten.mpr ⟨?_, ?_⟩
  · intro l hl
    rcases List.mem_map.mp hl with ⟨k, _, rfl⟩
    exact pairwise_rowLE_rankGroup _
      (hsorted.sublist (List.filter_sublist _))
  · rw [List.pairwise_map]
    have hkeys : List.Pairwise (fun a b => strLeB a b = true)
        ((summaryRowsSorted records).map (fun row => row.benchmark)) := by
      rw [List.pairwise_map]
      exact hsorted.imp (fun h => pairLeB_fst h)
    have hle : List.Pairwise (fun a b => strLeB a b = true)
        (dedupFirst ((summaryRowsSorted records).map
          (fun row => row.benchmark))) :=
      hkeys.sublist (dedupFirst_sublist _)
    have hne : List.Pairwise (fun a b => a ≠ b)
        (dedupFirst ((summaryRowsSorted records).map
          (fun row => row.benchmark))) :=
      dedupFirst_nodup _
    have hcomb := hle.and hne
    refine hcomb.imp ?_
    intro k1 k2 ⟨hk12, hk12ne⟩
    intro x hx y hy
    rcases rankGroup_mem_key _ x hx with ⟨zx, hzx, hbx, _⟩
    rcases rankGroup_mem_key _ y hy with ⟨zy, hzy, hby, _⟩
    have hbzx : zx.benchmark = k1 := by
      have := (List.mem_filter.mp hzx).2
      exact of_decide_eq_true this
    have hbzy : zy.benchmark = k2 := by
      have := (List.mem_filter.mp hzy).2
      exact of_decide_eq_true this
    unfold rowLE rowKey
    apply pairLeB_of_fst_lt
    show strLtB x.benchmark y.benchmark = true
    rw [hbx, hby, hbzx, hbzy]
    exact strLtB_of_strLeB_ne hk12 hk12ne

/-- C10: one `summarize` pass returns rows sorted ascending by
`(benchmark, version)`; each benchmark group (built from that sorted
list) therefore lists its rows in ascending version order, so among
rows tied at the group's maximum latest score the strict-best row (the
first maximum in encounter order) carries a version label
lexicographically no greater than any tied row's label. -/
theorem claim_C10_sorted_rows_lex_tiebreak (records : List Record)
    (k : String) (j : ℕ) (hj : j < (benchmarkGroupRows records k).length)
    (d : SummaryRow)
    (htie : ((benchmarkGroupRows records k).get ⟨j, hj⟩).latestScore =
      ((benchmarkGroupRows records k).getD
        (bestIndex (benchmarkGroupRows records k)) d).latestScore) :
    List.Pairwise rowLE (summarize records) ∧
    List.Pairwise (fun a b => strLeB a.version b.version = true)
      (benchmarkGroupRows records k) ∧
    strLeB ((benchmarkGroupRows records k).getD
        (bestIndex (benchmarkGroupRows records k)) d).version
      ((benchmarkGroupRows records k).get ⟨j, hj⟩).version = true := by
  have hsorted : List.Pairwise rowLE (summaryRowsSorted records) :=
    List.sorted_insertionSort rowLE _
  have hgroup : List.Pairwise rowLE (benchmarkGroupRows records k) :=
    hsorted.sublist (List.filter_sublist _)
  have hver : List.Pairwise (fun a b => strLeB a.version b.version = true)
      (benchmarkGroupRows records k) := by
    refine hgroup.imp_of_mem ?_
    intro a b ha hb hab
    have hka : a.benchmark = k :=
      of_decide_eq_true (List.mem_filter.mp ha).2
    have hkb : b.benchmark = k :=
      of_decide_eq_true (List.mem_filter.mp hb).2
    exact pairLeB_snd_of_fst_eq hab
      (show a.benchmark = b.benchmark by rw [hka, hkb])
  refine ⟨pairwise_rowLE_summarize records, hver, ?_⟩
  have hne : benchmarkGroupRows records k ≠ [] := by
    intro habs
    rw [habs] at hj
    exact absurd hj (by simp)
  have hbi : bestIndex (benchmarkGroupRows records k) <
      (benchmarkGroupRows records k).length :=
    bestIndex_lt _ hne
  have hgetDj : (benchmarkGroupRows records k).getD j d =
      (benchmarkGroupRows records k).get ⟨j, hj⟩ := by
    rw [List.getD_eq_getElem _ _ hj]
    rfl
  have hgetDbi : (benchmarkGroupRows records k).getD
      (bestIndex (benchmarkGroupRows records k)) d =
      (benchmarkGroupRows records k).get
        ⟨bestIndex (benchmarkGroupRows records k), hbi⟩ := by
    rw [List.getD_eq_getElem _ _ hbi]
    rfl
  rcases Nat.lt_trichotomy j (bestIndex (benchmarkGroupRows records k)) with
    hlt | heq | hgt
  · exfalso
    have hfirst := bestIndex_first (benchmarkGroupRows records k) d j hlt
    rw [hgetDj, htie] at hfirst
    exact lt_irrefl _ hfirst
  · rw [hgetDbi]
    have hfin : (⟨bestIndex (benchmarkGroupRows records k), hbi⟩ :
        Fin (benchmarkGroupRows records k).length) = ⟨j, hj⟩ := by
      apply Fin.ext
      simp [heq]
    rw [hfin]
    exact strLeB_refl _
  · have hpair := (List.pairwise_iff_get.mp hver)
      ⟨bestIndex (benchmarkGroupRows records k), hbi⟩ ⟨j, hj⟩
      (Fin.mk_lt_mk.mpr hgt)
    rw [hgetDbi]
    exact hpair

theorem exMeanA : fmean [(100:ℝ), 110] = 105 := by
  norm_num [fmean]

theorem exStdevA : stdev [(100:ℝ), 110] = Real.sqrt 50 := by
  norm_num [stdev, sampleVariance, fmean]

theorem exMeanB : fmean [(95:ℝ), 150] = 122.5 := by
  norm_num [fmean]

theorem exStdevB : stdev [(95:ℝ), 150] = Real.sqrt 1512.5 := by
  norm_num [stdev, sampleVariance, fmean]

theorem exCvA : exRowA.cvLast8Percent = some (Real.sqrt 50 / 105 * 100) := by
  show (if fmean [(100:ℝ), 110] ≠ 0
      then some (stdev [(100:ℝ), 110] / fmean [(100:ℝ), 110] * 100)
      else none) = _
  rw [if_pos (by rw [exMeanA]; norm_num), exStdevA, exMeanA]

theorem exCvB : exRowB.cvLast8Percent =
    some (Real.sqrt 1512.5 / 122.5 * 100) := by
  show (if fmean [(95:ℝ), 150] ≠ 0
      then some (stdev [(95:ℝ), 150] / fmean [(95:ℝ), 150] * 100)
      else none) = _
  rw [if_pos (by rw [exMeanB]; norm_num), exStdevB, exMeanB]

theorem exSqrt50_lb : (7:ℝ) ≤ Real.sqrt 50 := by
  nlinarith [Real.sq_sqrt (show (0:ℝ) ≤ 50 by norm_num), Real.sqrt_nonneg 50]

theorem exSqrt50_ub : Real.sqrt 50 ≤ 7.08 := by
  nlinarith [Real.sq_sqrt (show (0:ℝ) ≤ 50 by norm_num), Real.sqrt_nonneg 50]

theorem exSqrt50_lb2 : (7.07:ℝ) ≤ Real.sqrt 50 := by
  nlinarith [Real.sq_sqrt (show (0:ℝ) ≤ 50 by norm_num), Real.sqrt_nonneg 50]

theorem exSqrt1512_lb : (24.5:ℝ) ≤ Real.sqrt 1512.5 := by
  nlinarith [Real.sq_sqrt (show (0:ℝ) ≤ 1512.5 by norm_num),
    Real.sqrt_nonneg 1512.5]

theorem exUA : uncertainty_percent exRowA = Real.sqrt 50 / 105 * 100 := by
  simp only [uncertainty_percent, exCvA, relative_error_percent,
    show exRowA.latestScoreError = none from rfl]
  simp only [List.cons_append, List.nil_append, List.append_nil, List.foldl]
  rw [abs_of_nonneg (by positivity : (0:ℝ) ≤ Real.sqrt 50 / 105 * 100)]
  rw [max_self, max_eq_right (by nlinarith [exSqrt50_lb]),
    min_eq_left (by nlinarith [exSqrt50_ub])]

theorem exCvB_ge_20 : (20:ℝ) ≤ Real.sqrt 1512.5 / 122.5 * 100 := by
  rw [div_mul_eq_mul_div, le_div_iff₀ (by norm_num : (0:ℝ) < 122.5)]
  nlinarith [exSqrt1512_lb]

theorem exUB : uncertainty_percent exRowB = 20 := by
  simp only [uncertainty_percent, exCvB, relative_error_percent,
    show exRowB.latestScoreError = none from rfl]
  simp only [List.cons_append, List.nil_append, List.append_nil, List.foldl]
  rw [abs_of_nonneg (by positivity : (0:ℝ) ≤ Real.sqrt 1512.5 / 122.5 * 100)]
  rw [max_self, max_eq_right (le_trans (by norm_num) exCvB_ge_20),
    min_eq_right exCvB_ge_20]

theorem exBi : bestIndex [exRowA, exRowB] = 1 := by
  show (if exRowA.latestScore < exRowB.latestScore then
      bestIndexAux 2 1 exRowB.latestScore []
    else bestIndexAux 2 0 exRowA.latestScore []) = 1
  rw [if_pos]
  · rfl
  · show (110:ℝ) < 150
    norm_num

theorem exBandA : combinedBandOf exRowB exRowA = 20 := by
  unfold combinedBandOf
  rw [exUB, exUA]
  have hs : (20:ℝ) ≤ Real.sqrt
      ((20:ℝ) ^ 2 + (Real.sqrt 50 / 105 * 100) ^ 2) := by
    rw [Real.le_sqrt (by norm_num) (by positivity)]
    nlinarith [sq_nonneg (Real.sqrt 50 / 105 * 100)]
  rw [max_eq_left (by linarith), min_eq_right hs]

theorem exDfbA : deltaFromBestOf exRowB exRowA = 80 / 3 := by
  unfold deltaFromBestOf
  rw [if_pos (by show (150:ℝ) ≠ 0; norm_num)]
  show ((150:ℝ) - 110) / 150 * 100 = 80 / 3
  norm_num

theorem exUA_ub : Real.sqrt 50 / 105 * 100 ≤ 6.745 := by
  rw [div_mul_eq_mul_div, div_le_iff₀ (by norm_num : (0:ℝ) < 105)]
  nlinarith [exSqrt50_ub]

theorem exUA_lb : (6.66:ℝ) ≤ Real.sqrt 50 / 105 * 100 := by
  rw [div_mul_eq_mul_div, le_div_iff₀ (by norm_num : (0:ℝ) < 105)]
  nlinarith [exSqrt50_lb]

theorem exUA_near : |Real.sqrt 50 / 105 * 100 - 6.7| < 0.05 := by
  rw [abs_lt]
  constructor
  · linarith [exUA_lb]
  · linarith [exUA_ub]

/-- C2 counterexample: on the spec's example input the code's combined
band for version `a` is exactly `20` — the `clamp(·, 2, 20)` cuts the
claimed value `sqrt(20^2 + 6.7^2) ≈ 21.1` down to the upper bound `20`,
which is not within `0.5` of `21.1`. -/
theorem claim_C2_counterexample :
    ((rankGroup [exRowA, exRowB]).get
        ⟨0, by rw [rankGroup_length]; decide⟩).bestBandPercent =
      some 20 ∧
    summarize exRecs = rankGroup [exRowA, exRowB] ∧
    |(20:ℝ) - 21.1| > 0.5 := by
  refine ⟨?_, rfl, ?_⟩
  case refine_2 =>
    rw [abs_sub_comm,
      abs_of_nonneg (by norm_num : (0:ℝ) ≤ 21.1 - 20)]
    norm_num
  rw [rankGroup_cons_get exRowA [exRowB] 0 (by decide)
    (by rw [rankGroup_length]; decide)]
  rw [flagRow_bestBandPercent]
  rw [exBi]
  show some (combinedBandOf exRowB exRowA) = some 20
  rw [exBandA]

/-- C2 amended: on the example input, the best row is `b` (latest score
150, strict-best), `a`'s delta-from-best is `80/3 ≈ 26.7%`, the
uncertainty percents are `100·sqrt(50)/105 ≈ 6.7%` for `a` and exactly
`20%` for `b` (clamped), the combined band for `a` is
`clamp(sqrt(20^2 + 6.7^2), 2, 20) = 20` (the unclamped value ≈ 21.1 is
cut by the cap), and `a`'s co-best flag is false. -/
theorem claim_C2_amended_example : summarize exRecs =
      rankGroup [exRowA, exRowB] ∧
    exRowA.version = "a" ∧ exRowB.version = "b" ∧
    exRowA.latestScore = 110 ∧ exRowB.latestScore = 150 ∧
    ((rankGroup [exRowA, exRowB]).get
        ⟨1, by rw [rankGroup_length]; decide⟩).strictBest = some true ∧
    ((rankGroup [exRowA, exRowB]).get
        ⟨0, by rw [rankGroup_length]; decide⟩).strictBest = some false ∧
    ((rankGroup [exRowA, exRowB]).get
        ⟨0, by rw [rankGroup_length]; decide⟩).deltaFromBestPercent =
      some (80 / 3) ∧
    |(80:ℝ) / 3 - 26.7| < 0.05 ∧
    ((rankGroup [exRowA, exRowB]).get
        ⟨0, by rw [rankGroup_length]; decide⟩).uncertaintyPercent =
      some (Real.sqrt 50 / 105 * 100) ∧
    |Real.sqrt 50 / 105 * 100 - 6.7| < 0.05 ∧
    ((rankGroup [exRowA, exRowB]).get
        ⟨1, by rw [rankGroup_length]; decide⟩).uncertaintyPercent =
      some 20 ∧
    ((rankGroup [exRowA, exRowB]).get
        ⟨0, by rw [rankGroup_length]; decide⟩).bestBandPercent = some 20 ∧
    ((rankGroup [exRowA, exRowB]).get
        ⟨0, by rw [rankGroup_length]; decide⟩).coBest = some false := by
  have h0 := rankGroup_cons_get exRowA [exRowB] 0 (by decide)
    (by rw [rankGroup_length]; decide)
  have h1 := rankGroup_cons_get exRowA [exRowB] 1 (by decide)
    (by rw [rankGroup_length]; decide)
  refine ⟨rfl, rfl, rfl, rfl, rfl, ?_, ?_, ?_, ?_, ?_, exUA_near, ?_, ?_, ?_⟩
  · rw [h1, flagRow_strictBest, exBi]
    simp
  · rw [h0, flagRow_strictBest, exBi]
    simp
  · rw [h0, flagRow_deltaFromBestPercent, exBi]
    show some (deltaFromBestOf exRowB exRowA) = _
    rw [exDfbA]
  · rw [abs_lt]
    constructor <;> norm_num
  · rw [h0, flagRow_uncertaintyPercent]
    show some (uncertainty_percent exRowA) = _
    rw [exUA]
  · rw [h1, flagRow_uncertaintyPercent]
    show some (uncertainty_percent exRowB) = _
    rw [exUB]
  · rw [h0, flagRow_bestBandPercent, exBi]
    show some (combinedBandOf exRowB exRowA) = _
    rw [exBandA]
  · rw [h0, flagRow_coBest, exBi]
    show some (decide (deltaFromBestOf exRowB exRowA ≤
      combinedBandOf exRowB exRowA + 1e-9)) = some false
    rw [decide_eq_false]
    rw [exDfbA, exBandA]
    norm_num

instance : IsTotal (String × String) axisKeyLE :=
  ⟨fun a b => pairLeB_total (a.2, a.1) (b.2, b.1)⟩

instance : IsTrans (String × String) axisKeyLE :=
  ⟨fun _ _ _ hab hbc => pairLeB_trans hab hbc⟩

theorem axisKeyLE_antisymm {a b : String × String}
    (hab : axisKeyLE a b) (hba : axisKeyLE b a) : a = b := by
  have := pairLeB_antisymm hab hba
  have h1 : a.2 = b.2 := congrArg Prod.fst this
  have h2 : a.1 = b.1 := congrArg Prod.snd this
  exact Prod.ext h2 h1

theorem dedupFirstP_sublist :
    ∀ l : List (String × String), List.Sublist (dedupFirstP l) l := by
  intro l
  induction l with
  | nil => exact List.Sublist.refl []
  | cons k ks ih =>
    exact List.Sublist.cons₂ k ((List.filter_sublist _).trans ih)

theorem dedupFirstP_nodup :
    ∀ l : List (String × String), (dedupFirstP l).Nodup := by
  intro l
  induction l with
  | nil => exact List.nodup_nil
  | cons k ks ih =>
    refine List.nodup_cons.mpr ⟨?_, ih.filter _⟩
    intro hmem
    have := (List.mem_filter.mp hmem).2
    simp at this

theorem dedupFirstP_mem (l : List (String × String)) (x : String × String) :
    x ∈ dedupFirstP l ↔ x ∈ l := by
  constructor
  · intro hx
    exact (dedupFirstP_sublist l).mem hx
  · intro hx
    induction l with
    | nil => exact absurd hx (List.not_mem_nil x)
    | cons k ks ih =>
      rcases List.mem_cons.mp hx with rfl | hx
      · exact List.mem_cons_self _ _
      · by_cases hk : x = k
        · rw [hk]
          exact List.mem_cons_self _ _
        · exact List.mem_cons_of_mem _
            (List.mem_filter.mpr ⟨ih hx, by simpa using hk⟩)

theorem lastIndexOfFst_some :
    ∀ (l : List (String × String)) (x : String) (i : ℕ),
      lastIndexOfFst l x = some i →
      ∃ h : i < l.length, (l.get ⟨i, h⟩).1 = x := by
  intro l
  induction l with
  | nil => intro x i h; simp [lastIndexOfFst] at h
  | cons p rest ih =>
    intro x i h
    simp only [lastIndexOfFst] at h
    cases hrest : lastIndexOfFst rest x with
    | some j =>
      rw [hrest] at h
      have hij : i = j + 1 := (Option.some_inj.mp h).symm
      subst hij
      rcases ih x j hrest with ⟨hj, hfst⟩
      exact ⟨Nat.succ_lt_succ hj, hfst⟩
    | none =>
      rw [hrest] at h
      by_cases hp : p.1 = x
      · rw [if_pos hp] at h
        have hi0 : i = 0 := (Option.some_inj.mp h).symm
        subst hi0
        exact ⟨Nat.succ_pos _, hp⟩
      · rw [if_neg hp] at h
        exact absurd h (Option.noConfusion)

theorem lastIndexOfFst_isSome :
    ∀ (l : List (String × String)) (x : String) (i : ℕ)
      (hi : i < l.length), (l.get ⟨i, hi⟩).1 = x →
      (lastIndexOfFst l x).isSome = true := by
  intro l
  induction l with
  | nil => intro x i hi; exact absurd hi (Nat.not_lt_zero i)
  | cons p rest ih =>
    intro x i hi hfst
    simp only [lastIndexOfFst]
    cases hrest : lastIndexOfFst rest x with
    | some j => simp
    | none =>
      cases i with
      | zero =>
        have hp : p.1 = x := hfst
        simp [hp]
      | succ k =>
        have := ih x k (Nat.lt_of_succ_lt_succ hi) hfst
        rw [hrest] at this
        simp at this

theorem fillLine_length (axis : List (String × String))
    (recs : List Record) : (fillLine axis recs).length = axis.length := by
  unfold fillLine
  induction recs using List.reverseRecOn with
  | nil => simp
  | append_singleton recs r ih =>
    rw [List.foldl_append]
    simp only [List.foldl]
    cases lastIndexOfFst axis r.run_id with
    | some i => simpa using ih
    | none => exact ih

theorem fillLine_concat (axis : List (String × String))
    (recs : List Record) (r : Record) :
    fillLine axis (recs ++ [r]) =
      (match lastIndexOfFst axis r.run_id with
        | some i => (fillLine axis recs).set i (some r.score)
        | none => fillLine axis recs) := by
  unfold fillLine
  rw [List.foldl_append]
  simp only [List.foldl]

theorem fillLine_get (axis : List (String × String)) :
    ∀ (recs : List Record) (i : ℕ) (hi : i < (fillLine axis recs).length),
      (fillLine axis recs).get ⟨i, hi⟩ =
        (match (recs.filter (fun r =>
            decide (lastIndexOfFst axis r.run_id = some i))).getLast? with
          | some r => some r.score
          | none => none) := by
  intro recs
  induction recs using List.reverseRecOn with
  | nil =>
    intro i hi
    simp [fillLine]
  | append_singleton recs r ih =>
    intro i hi
    have hi' : i < (fillLine axis recs).length := by
      rw [fillLine_length]
      rw [fillLine_length] at hi
      exact hi
    rw [List.get_eq_getElem]
    have hcat := fillLine_concat axis recs r
    cases hidx : lastIndexOfFst axis r.run_id with
    | none =>
      rw [hidx] at hcat
      simp only [List.filter_append, List.filter,
        show decide (lastIndexOfFst axis r.run_id = some i) = false by
          rw [hidx]; simp]
      rw [List.append_nil]
      have := ih i hi'
      rw [List.get_eq_getElem] at this
      simp only [hcat]
      exact this
    | some j =>
      rw [hidx] at hcat
      simp only [hcat]
      rw [List.getElem_set]
      by_cases hji : j = i
      · subst hji
        rw [if_pos rfl]
        rw [List.filter_append]
        have hr : (List.filter (fun r =>
            decide (lastIndexOfFst axis r.run_id = some j)) [r]) = [r] := by
          simp only [List.filter, hidx]
          simp
        rw [hr, List.getLast?_concat]
      · rw [if_neg hji]
        rw [List.filter_append]
        have hr : (List.filter (fun rr =>
            decide (lastIndexOfFst axis rr.run_id = some i)) [r]) = [] := by
          simp only [List.filter, hidx]
          simp [hji]
        rw [hr, List.append_nil]
        have := ih i hi'
        rw [List.get_eq_getElem] at this
        exact this

theorem mem_of_getLast?_eq {α : Type} {l : List α} {r : α}
    (h : l.getLast? = some r) : r ∈ l := by
  induction l with
  | nil => simp at h
  | cons x xs ih =>
    cases xs with
    | nil =>
      simp only [List.getLast?_singleton, Option.some_inj] at h
      simp [h]
    | cons y ys =>
      rw [List.getLast?_cons_cons] at h
      exact List.mem_cons_of_mem _ (ih h)

theorem axis_mem (values : List Record) (pair : String × String) :
    pair ∈ chartAxis values ↔
      ∃ r ∈ values, (r.run_id, r.run_timestamp) = pair := by
  unfold chartAxis
  rw [List.mem_insertionSort, dedupFirstP_mem, List.mem_map]

theorem axis_nodup (values : List Record) : (chartAxis values).Nodup :=
  (List.perm_insertionSort axisKeyLE _).nodup_iff.mpr (dedupFirstP_nodup _)

theorem axis_sorted (values : List Record) :
    List.Pairwise (fun a b => axisKeyLE a b ∧ a ≠ b) (chartAxis values) :=
  (List.sorted_insertionSort axisKeyLE _).and (axis_nodup values)

theorem axis_fst_inj (values : List Record)
    (H1 : ∀ r ∈ values, ∀ s ∈ values,
      r.run_id = s.run_id → r.run_timestamp = s.run_timestamp)
    (i j : ℕ) (hi : i < (chartAxis values).length)
    (hj : j < (chartAxis values).length)
    (hfst : ((chartAxis values).get ⟨i, hi⟩).1 =
      ((chartAxis values).get ⟨j, hj⟩).1) : i = j := by
  have hmi : (chartAxis values).get ⟨i, hi⟩ ∈ chartAxis values :=
    List.get_mem _ _ _
  have hmj : (chartAxis values).get ⟨j, hj⟩ ∈ chartAxis values :=
    List.get_mem _ _ _
  rcases (axis_mem values _).mp hmi with ⟨ri, hri, hpi⟩
  rcases (axis_mem values _).mp hmj with ⟨rj, hrj, hpj⟩
  have hid : ri.run_id = rj.run_id := by
    have h1 : ri.run_id = ((chartAxis values).get ⟨i, hi⟩).1 := by
      rw [← hpi]
    have h2 : rj.run_id = ((chartAxis values).get ⟨j, hj⟩).1 := by
      rw [← hpj]
    rw [h1, h2, hfst]
  have hts : ri.run_timestamp = rj.run_timestamp := H1 ri hri rj hrj hid
  have hpair : (chartAxis values).get ⟨i, hi⟩ =
      (chartAxis values).get ⟨j, hj⟩ := by
    rw [← hpi, ← hpj, hid, hts]
  have hfin := ((axis_nodup values).get_inj_iff).mp hpair
  exact congrArg Fin.val hfin

theorem lastIndexOfFst_axis (values : List Record)
    (H1 : ∀ r ∈ values, ∀ s ∈ values,
      r.run_id = s.run_id → r.run_timestamp = s.run_timestamp)
    (rid : String) (i : ℕ) (hi : i < (chartAxis values).length) :
    lastIndexOfFst (chartAxis values) rid = some i ↔
      ((chartAxis values).get ⟨i, hi⟩).1 = rid := by
  constructor
  · intro h
    rcases lastIndexOfFst_some _ _ _ h with ⟨h', hfst⟩
    exact hfst
  · intro h
    have hs := lastIndexOfFst_isSome _ rid i hi h
    rcases Option.isSome_iff_exists.mp hs with ⟨j, hj⟩
    rcases lastIndexOfFst_some _ _ _ hj with ⟨hj', hjfst⟩
    have hij : j = i := axis_fst_inj values H1 j i hj' hi (by rw [hjfst, h])
    rw [hj, hij]

/-- C7 counterexample: with two records sharing run id `r` under two
different timestamps, version `a` has a record on the run
`("r", "t1")` — the first axis entry — yet its value there is the gap
marker: the `run_index` dict keys positions by run id alone and keeps
only the last position. -/
theorem claim_C7_counterexample :
    build_chart_data_map [cxRec1, cxRec2] =
      [("X",
        { benchmark := "X", scoreUnit := ""
          runs := [("r", "t1"), ("r", "t2")]
          series := [⟨"a", [none, some 2]⟩] })] ∧
    cxRec1 ∈ [cxRec1, cxRec2] ∧
    (cxRec1.run_id, cxRec1.run_timestamp) = ("r", "t1") ∧
    cxRec1.version = "a" :=
  ⟨rfl, List.mem_cons_self _ _, rfl, rfl⟩

/-- C7 amended: for every record set in which a run id determines its
timestamp (as the history loader guarantees), each chart entry is built
from exactly its benchmark's records, the axis lists each distinct
`(run id, timestamp)` pair exactly once in strictly ascending
`(timestamp, run id)` order, every series has one value per axis
position, and a value is present exactly when that version has a record
on that exact run — in which case it is that record's score. -/
theorem claim_C7_amended_aligned_series (records : List Record)
    (grp : List Record)
    (H1 : ∀ r ∈ grp, ∀ s ∈ grp,
      r.run_id = s.run_id → r.run_timestamp = s.run_timestamp)
    (k : String) :
    (∀ p ∈ build_chart_data_map records,
      p.2 = buildChartEntry p.1
        (records.filter (fun r => decide (r.benchmark = p.1)))) ∧
    (buildChartEntry k grp).runs.Nodup ∧
    List.Pairwise (fun a b => axisKeyLE a b ∧ a ≠ b)
      (buildChartEntry k grp).runs ∧
    (∀ pair, pair ∈ (buildChartEntry k grp).runs ↔
      ∃ r ∈ grp, (r.run_id, r.run_timestamp) = pair) ∧
    (∀ s ∈ (buildChartEntry k grp).series,
      s.data.length = (buildChartEntry k grp).runs.length) ∧
    (∀ s ∈ (buildChartEntry k grp).series, ∀ (i : ℕ)
      (hi : i < s.data.length)
      (hi' : i < (buildChartEntry k grp).runs.length),
      ((s.data.get ⟨i, hi⟩).isSome = true ↔
        ∃ r ∈ grp, r.version = s.name ∧
          (r.run_id, r.run_timestamp) =
            (buildChartEntry k grp).runs.get ⟨i, hi'⟩) ∧
      (∀ q, s.data.get ⟨i, hi⟩ = some q →
        ∃ r ∈ grp, r.version = s.name ∧
          (r.run_id, r.run_timestamp) =
            (buildChartEntry k grp).runs.get ⟨i, hi'⟩ ∧ r.score = q)) := by
  have hmemva : ∀ r, r ∈ List.insertionSort recLE grp ↔ r ∈ grp :=
    fun r => List.mem_insertionSort recLE
  have H1' : ∀ r ∈ List.insertionSort recLE grp,
      ∀ s ∈ List.insertionSort recLE grp,
      r.run_id = s.run_id → r.run_timestamp = s.run_timestamp := by
    intro r hr s hs
    exact H1 r ((hmemva r).mp hr) s ((hmemva s).mp hs)
  refine ⟨?_, ?_, ?_, ?_, ?_, ?_⟩
  · intro p hp
    rcases List.mem_map.mp hp with ⟨g, hg, rfl⟩
    have hgd : g ∈ dictGroup (fun r => r.benchmark) records :=
      (List.mem_insertionSort groupLE).mp hg
    unfold dictGroup at hgd
    rcases List.mem_map.mp hgd with ⟨k', _, rfl⟩
    rfl
  · exact axis_nodup (List.insertionSort recLE grp)
  · exact axis_sorted (List.insertionSort recLE grp)
  · intro pair
    show pair ∈ chartAxis (List.insertionSort recLE grp) ↔ _
    rw [axis_mem]
    constructor
    · rintro ⟨r, hr, h⟩
      exact ⟨r, (hmemva r).mp hr, h⟩
    · rintro ⟨r, hr, h⟩
      exact ⟨r, (hmemva r).mpr hr, h⟩
  · intro s hs
    rcases List.mem_map.mp hs with ⟨v, hv, rfl⟩
    exact fillLine_length _ _
  · intro s hs i hi hi'
    rcases List.mem_map.mp hs with ⟨v, hv, rfl⟩
    have hbridge : ∀ r, r ∈ List.insertionSort recLE grp →
        ((r.run_id, r.run_timestamp) =
          (chartAxis (List.insertionSort recLE grp)).get ⟨i, hi'⟩ ↔
        lastIndexOfFst (chartAxis (List.insertionSort recLE grp)) r.run_id =
          some i) := by
      intro r hr
      constructor
      · intro hp
        apply (lastIndexOfFst_axis _ H1' r.run_id i hi').mpr
        rw [← hp]
      · intro hl
        have hfst := (lastIndexOfFst_axis _ H1' r.run_id i hi').mp hl
        have hpm : (r.run_id, r.run_timestamp) ∈
            chartAxis (List.insertionSort recLE grp) :=
          (axis_mem _ _).mpr ⟨r, hr, rfl⟩
        rcases List.mem_iff_get.mp hpm with ⟨⟨j, hj⟩, hget⟩
        have hij : j = i := axis_fst_inj _ H1' j i hj hi'
          (by rw [hget]; exact hfst.symm)
        subst hij
        exact hget.symm
    have hmemfil2 : ∀ r,
        r ∈ ((List.insertionSort recLE grp).filter
            (fun r => decide (r.version = v))).filter
          (fun r => decide (lastIndexOfFst
            (chartAxis (List.insertionSort recLE grp)) r.run_id = some i)) ↔
        (r ∈ List.insertionSort recLE grp ∧ r.version = v ∧
          lastIndexOfFst (chartAxis (List.insertionSort recLE grp))
            r.run_id = some i) := by
      intro r
      rw [List.mem_filter, List.mem_filter]
      simp [and_assoc]
    have hdata := fillLine_get (chartAxis (List.insertionSort recLE grp))
      ((List.insertionSort recLE grp).filter
        (fun r => decide (r.version = v))) i hi
    constructor
    · dsimp only
      rw [hdata]
      cases hm : (((List.insertionSort recLE grp).filter
          (fun r => decide (r.version = v))).filter
        (fun r => decide (lastIndexOfFst
          (chartAxis (List.insertionSort recLE grp)) r.run_id =
            some i))).getLast? with
      | none =>
        dsimp only
        have hempty := List.getLast?_eq_none_iff.mp hm
        constructor
        · intro habs
          simp at habs
        · rintro ⟨r, hr, hver, hp⟩
          exfalso
          have hrva := (hmemva r).mpr hr
          have hrmem : r ∈ ((List.insertionSort recLE grp).filter
              (fun r => decide (r.version = v))).filter
            (fun r => decide (lastIndexOfFst
              (chartAxis (List.insertionSort recLE grp)) r.run_id =
                some i)) :=
            (hmemfil2 r).mpr ⟨hrva, hver, (hbridge r hrva).mp hp⟩
          rw [hempty] at hrmem
          exact List.not_mem_nil r hrmem
      | some r =>
        dsimp only
        constructor
        · intro _
          have hr2 := (hmemfil2 r).mp (mem_of_getLast?_eq hm)
          exact ⟨r, (hmemva r).mp hr2.1, hr2.2.1,
            (hbridge r hr2.1).mpr hr2.2.2⟩
        · intro _
          rfl
    · intro q hq
      dsimp only at hq
      rw [hdata] at hq
      cases hm : (((List.insertionSort recLE grp).filter
          (fun r => decide (r.version = v))).filter
        (fun r => decide (lastIndexOfFst
          (chartAxis (List.insertionSort recLE grp)) r.run_id =
            some i))).getLast? with
      | none =>
        rw [hm] at hq
        exact absurd hq (by simp)
      | some r =>
        rw [hm] at hq
        have hqr : r.score = q := Option.some_inj.mp hq
        have hr2 := (hmemfil2 r).mp (mem_of_getLast?_eq hm)
        exact ⟨r, (hmemva r).mp hr2.1, hr2.2.1,
          (hbridge r hr2.1).mpr hr2.2.2, hqr⟩

/-- Witness for C7 on a concrete one-record input. -/
theorem claim_C7_amended_aligned_series_witness :
    (∀ r ∈ [cxRec1], ∀ s ∈ [cxRec1],
      r.run_id = s.run_id → r.run_timestamp = s.run_timestamp) ∧
    ((∀ p ∈ build_chart_data_map [cxRec1],
      p.2 = buildChartEntry p.1
        ([cxRec1].filter (fun r => decide (r.benchmark = p.1)))) ∧
    (buildChartEntry "X" [cxRec1]).runs.Nodup ∧
    List.Pairwise (fun a b => axisKeyLE a b ∧ a ≠ b)
      (buildChartEntry "X" [cxRec1]).runs ∧
    (∀ pair, pair ∈ (buildChartEntry "X" [cxRec1]).runs ↔
      ∃ r ∈ [cxRec1], (r.run_id, r.run_timestamp) = pair) ∧
    (∀ s ∈ (buildChartEntry "X" [cxRec1]).series,
      s.data.length = (buildChartEntry "X" [cxRec1]).runs.length) ∧
    (∀ s ∈ (buildChartEntry "X" [cxRec1]).series, ∀ (i : ℕ)
      (hi : i < s.data.length)
      (hi' : i < (buildChartEntry "X" [cxRec1]).runs.length),
      ((s.data.get ⟨i, hi⟩).isSome = true ↔
        ∃ r ∈ [cxRec1], r.version = s.name ∧
          (r.run_id, r.run_timestamp) =
            (buildChartEntry "X" [cxRec1]).runs.get ⟨i, hi'⟩) ∧
      (∀ q, s.data.get ⟨i, hi⟩ = some q →
        ∃ r ∈ [cxRec1], r.version = s.name ∧
          (r.run_id, r.run_timestamp) =
            (buildChartEntry "X" [cxRec1]).runs.get ⟨i, hi'⟩ ∧
          r.score = q))) :=
  ⟨by decide, claim_C7_amended_aligned_series [cxRec1] [cxRec1]
    (by decide) "X"⟩

/-- Witness for C10 on a concrete tied two-version group. -/
theorem claim_C10_sorted_rows_lex_tiebreak_witness :
    (1 < (benchmarkGroupRows [waRec, wbRec] "X").length) ∧
    (((benchmarkGroupRows [waRec, wbRec] "X").get
        ⟨1, by decide⟩).latestScore =
      ((benchmarkGroupRows [waRec, wbRec] "X").getD
        (bestIndex (benchmarkGroupRows [waRec, wbRec] "X"))
        blankRow).latestScore) ∧
    (List.Pairwise rowLE (summarize [waRec, wbRec]) ∧
    List.Pairwise (fun a b => strLeB a.version b.version = true)
      (benchmarkGroupRows [waRec, wbRec] "X") ∧
    strLeB ((benchmarkGroupRows [waRec, wbRec] "X").getD
        (bestIndex (benchmarkGroupRows [waRec, wbRec] "X")) blankRow).version
      ((benchmarkGroupRows [waRec, wbRec] "X").get ⟨1, by decide⟩).version =
      true) := by
  have hbi : bestIndex (benchmarkGroupRows [waRec, wbRec] "X") = 0 := by
    show bestIndexAux 1 0
      (((mkRow [waRec]).get (by decide)).latestScore)
      [(mkRow [wbRec]).get (by decide)] = 0
    show (if ((mkRow [waRec]).get (by decide)).latestScore <
        ((mkRow [wbRec]).get (by decide)).latestScore then
        bestIndexAux 2 1 (((mkRow [wbRec]).get (by decide)).latestScore) []
      else bestIndexAux 2 0
        (((mkRow [waRec]).get (by decide)).latestScore) []) = 0
    rw [if_neg]
    · rfl
    · show ¬(100:ℝ) < 100
      norm_num
  have htie : ((benchmarkGroupRows [waRec, wbRec] "X").get
        ⟨1, by decide⟩).latestScore =
      ((benchmarkGroupRows [waRec, wbRec] "X").getD
        (bestIndex (benchmarkGroupRows [waRec, wbRec] "X"))
        blankRow).latestScore := by
    rw [hbi]
    rfl
  exact ⟨by decide, htie,
    claim_C10_sorted_rows_lex_tiebreak [waRec, wbRec] "X" 1 (by decide)
      blankRow htie⟩

/-- Witness for C4 on a concrete two-row group. -/
theorem claim_C4_strict_best_unique_first_max_witness :
    (0 < ([blankRow, blankRow] : List SummaryRow).length) ∧
    (((rankGroup [blankRow, blankRow]).countP
        (fun row => decide (row.strictBest = some true))) = 1 ∧
    (((rankGroup [blankRow, blankRow]).get
        ⟨0, by rw [rankGroup_length]; decide⟩).strictBest = some true ↔
      0 = bestIndex [blankRow, blankRow]) ∧
    ([blankRow, blankRow].get ⟨0, by decide⟩).latestScore ≤
      ([blankRow, blankRow].getD
        (bestIndex [blankRow, blankRow]) blankRow).latestScore ∧
    (∀ k, k < bestIndex [blankRow, blankRow] →
      ([blankRow, blankRow].getD k blankRow).latestScore <
        ([blankRow, blankRow].getD
          (bestIndex [blankRow, blankRow]) blankRow).latestScore) ∧
    ((rankGroup [blankRow, blankRow]).get
        ⟨bestIndex [blankRow, blankRow], by
          rw [rankGroup_length]
          exact bestIndex_lt [blankRow, blankRow]
            (List.cons_ne_nil blankRow [blankRow])⟩).coBest = some true) :=
  ⟨by decide,
    claim_C4_strict_best_unique_first_max blankRow [blankRow] 0 (by decide)⟩

theorem mkRowF_baseFinite (values : List RecordF)
    (h : ∀ r ∈ values, FVal.IsFinite r.score ∧
      ∀ e, r.score_error = some e → FVal.IsFinite e) :
    ∀ row, mkRowF values = some row → baseFinite row := by
  have hperm := List.perm_insertionSort recLEF values
  have hsorted : ∀ r ∈ List.insertionSort recLEF values,
      FVal.IsFinite r.score ∧
        ∀ e, r.score_error = some e → FVal.IsFinite e :=
    fun r hr => h r (hperm.mem_iff.mp hr)
  intro row hrow
  unfold mkRowF at hrow
  revert hrow
  revert hsorted
  generalize List.insertionSort recLEF values = l
  intro hsorted hrow
  cases l with
  | nil => exact Option.noConfusion hrow
  | cons v vs =>
    dsimp only at hrow
    injection hrow with hrow
    subst hrow
    have hmemS : ∀ x ∈ ((v :: vs).drop ((v :: vs).length - 8)).map
        (fun r => r.score), FVal.IsFinite x := by
      intro x hx
      rcases List.mem_map.mp hx with ⟨r, hr, rfl⟩
      exact (hsorted r (List.mem_of_mem_drop hr)).1
    have hneS : ((v :: vs).drop ((v :: vs).length - 8)).map
        (fun r => r.score) ≠ [] := by
      refine List.length_pos.mp ?_
      rw [List.length_map, List.length_drop]
      simp only [List.length_cons]
      omega
    unfold baseFinite
    dsimp only
    refine ⟨?_, ?_, ?_, ?_, ?_, ?_⟩
    · exact (hsorted _ (List.getLast_mem _)).1
    · exact (hsorted _ (List.getLast_mem _)).2
    · intro d hd
      split at hd
      · rename_i p heq
        split at hd
        · rename_i hz
          injection hd with hd
          subst hd
          split at heq
          · rcases (FVal.isFinite_iff _).mp
              (hsorted _ (List.getLast_mem _)).1 with ⟨a, ha⟩
            rcases (FVal.isFinite_iff _).mp
              (hsorted p (List.get?_mem heq)).1 with ⟨b, hb⟩
            rw [ha, hb]
            rw [hb] at hz
            rw [FVal.div_fin a b (show b ≠ 0 from hz), FVal.sub_fin]
            trivial
          · exact Option.noConfusion heq
        · exact Option.noConfusion hd
      · exact Option.noConfusion hd
    · exact fmeanF_fin _ hneS hmemS
    · intro s hs
      split at hs
      · rename_i h2
        injection hs with hs
        subst hs
        exact stdevF_fin _ h2 hmemS
      · exact Option.noConfusion hs
    · intro c hc
      split at hc
      · rename_i s heq
        split at hc
        · rename_i ht
          injection hc with hc
          subst hc
          split at heq
          · rename_i h2
            injection heq with heq
            subst heq
            rcases (FVal.isFinite_iff _).mp
              (fmeanF_fin _ hneS hmemS) with ⟨m, hm⟩
            rcases (FVal.isFinite_iff _).mp
              (stdevF_fin _ h2 hmemS) with ⟨sv, hsv⟩
            rw [hm] at ht
            rw [hm, hsv, FVal.div_fin sv m (show m ≠ 0 from ht)]
            trivial
          · exact Option.noConfusion heq
        · exact Option.noConfusion hc
      · exact Option.noConfusion hc

theorem summaryRowsSortedF_baseFinite (records : List RecordF)
    (h : ∀ r ∈ records, FVal.IsFinite r.score ∧
      ∀ e, r.score_error = some e → FVal.IsFinite e) :
    ∀ row ∈ summaryRowsSortedF records, baseFinite row := by
  intro row hrow
  unfold summaryRowsSortedF at hrow
  rw [List.mem_insertionSort] at hrow
  rcases List.mem_filterMap.mp hrow with ⟨g, hg, hmk⟩
  unfold dictGroupP at hg
  rcases List.mem_map.mp hg with ⟨k, hk, rfl⟩
  refine mkRowF_baseFinite _ ?_ row hmk
  intro r hr
  exact h r (List.mem_filter.mp hr).1

theorem flagRowF_latestScore (b : SummaryRowF) (bi i : ℕ)
    (r : SummaryRowF) : (flagRowF b bi i r).latestScore = r.latestScore :=
  rfl

theorem flagRowF_latestScoreError (b : SummaryRowF) (bi i : ℕ)
    (r : SummaryRowF) :
    (flagRowF b bi i r).latestScoreError = r.latestScoreError := rfl

theorem flagRowF_deltaVsPreviousPercent (b : SummaryRowF) (bi i : ℕ)
    (r : SummaryRowF) :
    (flagRowF b bi i r).deltaVsPreviousPercent =
      r.deltaVsPreviousPercent := rfl

theorem flagRowF_meanLast8 (b : SummaryRowF) (bi i : ℕ)
    (r : SummaryRowF) : (flagRowF b bi i r).meanLast8 = r.meanLast8 := rfl

theorem flagRowF_stdevLast8 (b : SummaryRowF) (bi i : ℕ)
    (r : SummaryRowF) : (flagRowF b bi i r).stdevLast8 = r.stdevLast8 := rfl

theorem flagRowF_cvLast8Percent (b : SummaryRowF) (bi i : ℕ)
    (r : SummaryRowF) :
    (flagRowF b bi i r).cvLast8Percent = r.cvLast8Percent := rfl

theorem flagRowF_uncertaintyPercent (b : SummaryRowF) (bi i : ℕ)
    (r : SummaryRowF) :
    (flagRowF b bi i r).uncertaintyPercent =
      some (uncertainty_percentF r) := rfl

theorem flagRowF_bestBandPercent (b : SummaryRowF) (bi i : ℕ)
    (r : SummaryRowF) :
    (flagRowF b bi i r).bestBandPercent =
      some (combinedBandF (uncertainty_percentF b)
        (uncertainty_percentF r)) := rfl

theorem flagRowF_deltaFromBestPercent (b : SummaryRowF) (bi i : ℕ)
    (r : SummaryRowF) :
    (flagRowF b bi i r).deltaFromBestPercent =
      some (if ¬ FVal.eqF b.latestScore (.fin 0) then
          FVal.mul (FVal.div (FVal.sub b.latestScore r.latestScore)
            b.latestScore) (.fin 100)
        else .fin 0) := rfl

theorem flagRowF_derivedFinite (b r : SummaryRowF) (bi i : ℕ)
    (hb : FVal.IsFinite b.latestScore) (hr : baseFinite r) :
    derivedFinite (flagRowF b bi i r) := by
  obtain ⟨h1, h2, h3, h4, h5, h6⟩ := hr
  refine ⟨?_, ?_, ?_, ?_, ?_, ?_, ?_, ?_, ?_⟩
  · rw [flagRowF_latestScore]; exact h1
  · intro e he; rw [flagRowF_latestScoreError] at he; exact h2 e he
  · intro d hd
    rw [flagRowF_deltaVsPreviousPercent] at hd
    exact h3 d hd
  · rw [flagRowF_meanLast8]; exact h4
  · intro s hs; rw [flagRowF_stdevLast8] at hs; exact h5 s hs
  · intro c hc; rw [flagRowF_cvLast8Percent] at hc; exact h6 c hc
  · intro u hu
    rw [flagRowF_uncertaintyPercent] at hu
    injection hu with hu
    subst hu
    rcases uncertainty_percentF_bounds r with ⟨x, hx, _, _⟩
    rw [hx]
    trivial
  · intro bb hbb
    rw [flagRowF_bestBandPercent] at hbb
    injection hbb with hbb
    subst hbb
    rcases uncertainty_percentF_bounds b with ⟨xb, hxb, _, _⟩
    rcases uncertainty_percentF_bounds r with ⟨xr, hxr, _, _⟩
    rw [hxb, hxr]
    rcases combinedBandF_bounds xb xr with ⟨y, hy, _, _⟩
    rw [hy]
    trivial
  · intro d hd
    rw [flagRowF_deltaFromBestPercent] at hd
    injection hd with hd
    subst hd
    by_cases hz : ¬ FVal.eqF b.latestScore (.fin 0)
    · rw [if_pos hz]
      rcases (FVal.isFinite_iff _).mp hb with ⟨bv, hbv⟩
      rcases (FVal.isFinite_iff _).mp h1 with ⟨rv, hrv⟩
      rw [hbv, hrv, FVal.sub_fin]
      rw [hbv] at hz
      rw [FVal.div_fin _ _ (show bv ≠ 0 from hz)]
      trivial
    · rw [if_neg hz]
      trivial

theorem bestIndexAuxF_lt :
    ∀ (xs : List SummaryRowF) (i bi : ℕ) (bs : FVal), bi < i →
      bestIndexAuxF i bi bs xs < i + xs.length := by
  intro xs
  induction xs with
  | nil =>
    intro i bi bs h
    unfold bestIndexAuxF
    simpa using h
  | cons x xs ih =>
    intro i bi bs h
    unfold bestIndexAuxF
    by_cases hlt : FVal.ltF bs x.latestScore
    · rw [if_pos hlt]
      have := ih (i + 1) i x.latestScore (Nat.lt_succ_self i)
      simp only [List.length_cons]
      omega
    · rw [if_neg hlt]
      have := ih (i + 1) bi bs (Nat.lt_succ_of_lt h)
      simp only [List.length_cons]
      omega

theorem bestIndexF_lt (rows : List SummaryRowF) (hne : rows ≠ []) :
    bestIndexF rows < rows.length := by
  cases rows with
  | nil => exact absurd rfl hne
  | cons x xs =>
    unfold bestIndexF
    have := bestIndexAuxF_lt xs 1 0 x.latestScore (by omega)
    simp only [List.length_cons]
    omega

theorem summarizeF_derivedFinite (records : List RecordF)
    (h : ∀ r ∈ records, FVal.IsFinite r.score ∧
      ∀ e, r.score_error = some e → FVal.IsFinite e) :
    ∀ row ∈ summarizeF records, derivedFinite row := by
  intro row hrow
  simp only [summarizeF] at hrow
  rcases List.mem_flatten.mp hrow with ⟨rg, hrg, hrowin⟩
  rcases List.mem_map.mp hrg with ⟨g, hgmem, rfl⟩
  unfold dictGroup at hgmem
  rcases List.mem_map.mp hgmem with ⟨k, hk, rfl⟩
  have hbase : ∀ x ∈ (summaryRowsSortedF records).filter
      (fun x => x.benchmark = k), baseFinite x := by
    intro x hx
    exact summaryRowsSortedF_baseFinite records h x (List.mem_filter.mp hx).1
  revert hrowin hbase
  generalize (summaryRowsSortedF records).filter (fun x => x.benchmark = k) =
    rows
  intro hrowin hbase
  unfold rankGroupF at hrowin
  cases rows with
  | nil => exact absurd hrowin (List.not_mem_nil row)
  | cons r0 rs =>
    dsimp only at hrowin
    have hbi := bestIndexF_lt (r0 :: rs) (List.cons_ne_nil r0 rs)
    have hgetD : (r0 :: rs).getD (bestIndexF (r0 :: rs)) r0 =
        (r0 :: rs).get ⟨bestIndexF (r0 :: rs), hbi⟩ := by
      rw [List.getD_eq_getElem _ _ hbi]
      rfl
    have hbestmem : (r0 :: rs).getD (bestIndexF (r0 :: rs)) r0 ∈ r0 :: rs := by
      rw [hgetD]
      exact List.get_mem _ _ _
    rcases mapIdxGo_mem _ _ _ _ hrowin with ⟨i, x, hx, rfl⟩
    exact flagRowF_derivedFinite _ x _ i (hbase _ hbestmem).1 (hbase x hx)

/-- C5 (amended): non-finite values CAN reach the output — with a NaN
input score the rolling mean and the delta-from-best come out as NaN
(see the counterexample).  What the code does guarantee: when every
input score, and every present input score error, is finite, then every
derived statistic of every output row is absent or finite; and the
uncertainty percent and the combined band are always finite numbers in
[2, 20], whatever the row, because their candidates pass a
`math.isfinite` check and the results are clamped. -/
theorem claim_C5_amended (records : List RecordF)
    (hfin : ∀ r ∈ records, FVal.IsFinite r.score ∧
      ∀ e, r.score_error = some e → FVal.IsFinite e) :
    (∀ row ∈ summarizeF records, derivedFinite row) ∧
    (∀ row : SummaryRowF, ∃ x, uncertainty_percentF row = .fin x ∧
      2 ≤ x ∧ x ≤ 20) ∧
    (∀ row1 row2 : SummaryRowF, ∃ y,
      combinedBandF (uncertainty_percentF row1) (uncertainty_percentF row2) =
        .fin y ∧ 2 ≤ y ∧ y ≤ 20) := by
  refine ⟨summarizeF_derivedFinite records hfin,
    uncertainty_percentF_bounds, ?_⟩
  intro row1 row2
  rcases uncertainty_percentF_bounds row1 with ⟨x1, hx1, _, _⟩
  rcases uncertainty_percentF_bounds row2 with ⟨x2, hx2, _, _⟩
  rw [hx1, hx2]
  exact combinedBandF_bounds x1 x2

/-- Witness for the amended C5 on a one-record input with a finite
score. -/
theorem claim_C5_amended_witness :
    (∀ r ∈ [(⟨"r1", "t1", "a", "X", .fin 1, none, "", none, none, none,
        none⟩ : RecordF)], FVal.IsFinite r.score ∧
      ∀ e, r.score_error = some e → FVal.IsFinite e) ∧
    (∀ row ∈ summarizeF [(⟨"r1", "t1", "a", "X", .fin 1, none, "", none,
        none, none, none⟩ : RecordF)], derivedFinite row) := by
  have h : ∀ r ∈ [(⟨"r1", "t1", "a", "X", .fin 1, none, "", none, none,
      none, none⟩ : RecordF)], FVal.IsFinite r.score ∧
        ∀ e, r.score_error = some e → FVal.IsFinite e := by
    intro r hr
    rcases List.mem_singleton.mp hr with rfl
    exact ⟨trivial, fun e he => Option.noConfusion he⟩
  exact ⟨h, (claim_C5_amended _ h).1⟩

end Bench
